import Mathlib

/-!
Verification of the FAT32 recovery library (package `fat`).

The Go source is shallowly embedded: machine integers become `Nat` with
explicit `% 2^w` where Go arithmetic wraps, slices become `List Nat`,
the seekable byte source (`io.ReadSeeker`) becomes a pure byte function
`img : Nat → Nat` together with its length `imgLen : Nat`, and runtime
outcomes (normal return, Go `error`, index/division panic, infinite loop)
become the four constructors of `ExecRes`.
-/

namespace Fat

/-- Outcome of running a piece of the embedded Go code: a normal result,
a returned Go `error` (its message), a runtime panic (out-of-bounds index
or division by zero), or divergence of an unbounded `for` loop (detected
by exhausting a fuel bound chosen larger than any terminating run). -/
inductive ExecRes (α : Type) where
  | ok : α → ExecRes α
  | err : String → ExecRes α
  | fault : ExecRes α
  | diverge : ExecRes α
deriving DecidableEq, Repr

/-- Sequencing of embedded computations: errors, faults and divergence
propagate, mirroring Go early returns and aborting panics. -/
def ExecRes.bind {α β : Type} (x : ExecRes α) (f : α → ExecRes β) : ExecRes β :=
  match x with
  | .ok a => f a
  | .err s => .err s
  | .fault => .fault
  | .diverge => .diverge

/-- Read `l[i]` as Go does on a slice: a panic (`fault`) when out of bounds. -/
def fatGet (l : List Nat) (i : Nat) : ExecRes Nat :=
  match l.get? i with
  | some v => .ok v
  | none => .fault

/-- Write `l[i] = v` as Go does on a slice: a panic when out of bounds. -/
def listSet (l : List Nat) (i v : Nat) : ExecRes (List Nat) :=
  if i < l.length then .ok (l.set i v) else .fault

/-- The standard size of a drive sector, in bytes (`SectorSize` in fat.go). -/
def SectorSize : Nat := 512

/-- BIOS parameter block scalar fields (`BIOSParameterBlock` in fat.go;
the three-byte jump instruction and the OEM id are opaque byte arrays in
the source and are not needed by any claim, so they are omitted). -/
structure BIOSParameterBlock where
  BytesPerSector : Nat := 0
  SectorsPerCluster : Nat := 0
  ReservedSectorCount : Nat := 0
  FATCount : Nat := 0
  RootDirEntryCount : Nat := 0
  LogicalVolumeSectors : Nat := 0
  MediaDescriptorType : Nat := 0
  SectorsPerFAT : Nat := 0
  SectorsPerTrack : Nat := 0
  MediaHeadCount : Nat := 0
  HiddenSectorCount : Nat := 0
  LargeSectorCount : Nat := 0
deriving DecidableEq, Repr

/-- FAT32 extended boot record scalar fields (`FAT32EBR` in fat.go; the
reserved bytes, label/system id strings and boot code are opaque byte
arrays in the source and not needed by any claim). -/
structure FAT32EBR where
  SectorsPerFAT : Nat := 0
  Flags : Nat := 0
  FATVersion : Nat := 0
  RootDirClusterNumber : Nat := 0
  FSInfoSector : Nat := 0
  BackupBootSector : Nat := 0
  DriveNumber : Nat := 0
  WindowsNTFlags : Nat := 0
  Signature : Nat := 0
  VolumeID : Nat := 0
  BootSignature : Nat := 0
deriving DecidableEq, Repr

/-- Combined FAT32 header (`FAT32Header` in fat.go). -/
structure FAT32Header where
  BPB : BIOSParameterBlock := {}
  EBR : FAT32EBR := {}
deriving DecidableEq, Repr

/-- FSInfo block scalar fields (`FSInfo` in fat.go; reserved byte arrays
omitted). -/
structure FSInfo where
  Signature1 : Nat := 0
  Signature2 : Nat := 0
  LastKnownFreeCluster : Nat := 0
  FirstAvailableClusterHint : Nat := 0
  Signature3 : Nat := 0
deriving DecidableEq, Repr

/-- Signature validation of the FSInfo block (`FSInfo.Validate` in fat.go). -/
def FSInfo.Validate (n : FSInfo) : ExecRes Unit :=
  if n.Signature1 ≠ 0x41615252 then .err "Bad first signature"
  else if n.Signature2 ≠ 0x61417272 then .err "Bad second signature"
  else if n.Signature3 ≠ 0xaa550000 then .err "Bad third signature"
  else .ok ()

/-- The in-memory FAT32 filesystem state (`FAT32Filesystem` in fat.go).
`Content` stays outside the structure: it is passed to each operation as
the byte function and length of the underlying image. `Info` is the
`*FSInfo` pointer, `none` while unset. -/
structure FAT32Filesystem where
  Header : FAT32Header := {}
  Info : Option FSInfo := none
  FAT : List Nat := []
deriving DecidableEq, Repr

/-- One cluster chain (`FATChain` in fat.go). `Size` is the Go `uint64`. -/
structure FATChain where
  StartCluster : Nat := 0
  Contiguous : Bool := false
  Size : Nat := 0
deriving DecidableEq, Repr

/-! ## Header, FSInfo and FAT parsing (`ParseFAT32Header`, `parseFSInfo`,
`loadFAT`, `NewFAT32Filesystem` in fat.go)

`binary.Read` of a fixed-layout little-endian struct is embedded as field
extraction at the struct's byte offsets, failing like Go does when the
image ends before the struct. -/

/-- One byte of the image (reduced mod 256 so arbitrary `img` functions
still behave as byte sources). -/
def u8 (img : Nat → Nat) (off : Nat) : Nat := img off % 256

/-- Little-endian 16-bit read. -/
def u16le (img : Nat → Nat) (off : Nat) : Nat :=
  u8 img off + 256 * u8 img (off + 1)

/-- Little-endian 32-bit read. -/
def u32le (img : Nat → Nat) (off : Nat) : Nat :=
  u8 img off + 256 * u8 img (off + 1) + 65536 * u8 img (off + 2) +
    16777216 * u8 img (off + 3)

/-- Field-by-field decode of the 512-byte BPB+EBR block at offset 0
(byte offsets follow the Go struct layout). -/
def decodeFAT32Header (img : Nat → Nat) : FAT32Header :=
  { BPB := {
      BytesPerSector := u16le img 11
      SectorsPerCluster := u8 img 13
      ReservedSectorCount := u16le img 14
      FATCount := u8 img 16
      RootDirEntryCount := u16le img 17
      LogicalVolumeSectors := u16le img 19
      MediaDescriptorType := u8 img 21
      SectorsPerFAT := u16le img 22
      SectorsPerTrack := u16le img 24
      MediaHeadCount := u16le img 26
      HiddenSectorCount := u32le img 28
      LargeSectorCount := u32le img 32 }
    EBR := {
      SectorsPerFAT := u32le img 36
      Flags := u16le img 40
      FATVersion := u16le img 42
      RootDirClusterNumber := u32le img 44
      FSInfoSector := u16le img 48
      BackupBootSector := u16le img 50
      DriveNumber := u8 img 64
      WindowsNTFlags := u8 img 65
      Signature := u8 img 66
      VolumeID := u32le img 67
      BootSignature := u16le img 510 } }

/-- `ParseFAT32Header`: seek to 0, read the 512-byte header, reject a
sector size other than 512. -/
def ParseFAT32Header (img : Nat → Nat) (imgLen : Nat) : ExecRes FAT32Header :=
  if imgLen < 512 then .err "Error parsing FAT32 header"
  else
    let h := decodeFAT32Header img
    if h.BPB.BytesPerSector ≠ SectorSize then .err "Unsupported bytes per sector"
    else .ok h

/-- `parseFSInfo`: seek to `FSInfoSector * SectorSize`, read the 512-byte
FSInfo block (field offsets 0, 484, 488, 492, 508), validate signatures.
A validation failure is wrapped and returned as an error. -/
def parseFSInfo (img : Nat → Nat) (imgLen : Nat) (hdr : FAT32Header) : ExecRes FSInfo :=
  let byteOffset := hdr.EBR.FSInfoSector * SectorSize
  if imgLen < byteOffset + 512 then .err "Failed reading FSInfo struct"
  else
    let info : FSInfo := {
      Signature1 := u32le img byteOffset
      Signature2 := u32le img (byteOffset + 484)
      LastKnownFreeCluster := u32le img (byteOffset + 488)
      FirstAvailableClusterHint := u32le img (byteOffset + 492)
      Signature3 := u32le img (byteOffset + 508) }
    match info.Validate with
    | .ok _ => .ok info
    | .err e => .err ("Invalid FSInfo struct: " ++ e)
    | .fault => .fault
    | .diverge => .diverge

/-- `loadFAT`: `fatSize` is a `uint32` product (wraps mod 2^32), the FAT
is `fatSize / 4` little-endian 32-bit entries starting at
`ReservedSectorCount * SectorSize`. -/
def loadFAT (img : Nat → Nat) (imgLen : Nat) (hdr : FAT32Header) : ExecRes (List Nat) :=
  let fatSize := (hdr.EBR.SectorsPerFAT * SectorSize) % 2 ^ 32
  let fatEntryCount := fatSize / 4
  let fatOffset := hdr.BPB.ReservedSectorCount * SectorSize
  if imgLen < fatOffset + fatEntryCount * 4 then .err "Error reading FAT"
  else .ok ((List.range fatEntryCount).map (fun k => u32le img (fatOffset + 4 * k)))

/-- `NewFAT32Filesystem`: parse the header, then the FSInfo block, then
load the FAT; each failure aborts with a wrapped error, exactly as the
Go function does. -/
def NewFAT32Filesystem (img : Nat → Nat) (imgLen : Nat) : ExecRes FAT32Filesystem :=
  match ParseFAT32Header img imgLen with
  | .ok header =>
    match parseFSInfo img imgLen header with
    | .ok info =>
      match loadFAT img imgLen header with
      | .ok fat => .ok { Header := header, Info := some info, FAT := fat }
      | .err e => .err ("Error loading FAT: " ++ e)
      | .fault => .fault
      | .diverge => .diverge
    | .err e => .err ("Error reading FSInfo block: " ++ e)
    | .fault => .fault
    | .diverge => .diverge
  | .err e => .err ("Error reading FAT32 header: " ++ e)
  | .fault => .fault
  | .diverge => .diverge

/-! ## Chain reconstruction (`GetAllChains`, `followChainBackwards`)

The two `for i := uint32(2); i < clusterCount; i++` scans become
recursions over `List.range' 2 (clusterCount - 2)`; the two unbounded
`for` loops inside `followChainBackwards` take a fuel argument and answer
`diverge` when it runs out (the fuel passed by `GetAllChains` exceeds any
terminating run). -/

/-- First scan of `GetAllChains`: build the reversed FAT (sentinel
`0xffffffff`), skipping masked values that are end-of-chain (`≥ cc`) while
counting them, and skipping zero entries. -/
def revBuildLoop (fat : List Nat) (cc : Nat) :
    List Nat → List Nat → Nat → ExecRes (List Nat × Nat)
  | [], rev, count => .ok (rev, count)
  | i :: rest, rev, count =>
    (fatGet fat i).bind fun raw =>
      let v := raw &&& 0x0fffffff
      if cc ≤ v then revBuildLoop fat cc rest rev (count + 1)
      else if v = 0 then revBuildLoop fat cc rest rev count
      else (listSet rev v i).bind fun rev' => revBuildLoop fat cc rest rev' count

/-- Backward walk of `followChainBackwards`: follow the reversed FAT while
its entry is a valid cluster index, counting chain entries. -/
def backLoop (rev : List Nat) (cc : Nat) : Nat → Nat → Nat → ExecRes (Nat × Nat)
  | fuel, startCluster, chainEntries =>
    (fatGet rev startCluster).bind fun r =>
      if r < cc then
        match fuel with
        | 0 => .diverge
        | fuel' + 1 => backLoop rev cc fuel' r (chainEntries + 1)
      else .ok (startCluster, chainEntries)

/-- Forward contiguity scan of `followChainBackwards`. Note that it tests
the raw, unmasked FAT entry, exactly as the source does. -/
def contigLoop (fat : List Nat) (cc : Nat) : Nat → Nat → ExecRes Bool
  | fuel, currentCluster =>
    (fatGet fat currentCluster).bind fun v =>
      if v < cc then
        if v ≠ currentCluster + 1 then .ok false
        else
          match fuel with
          | 0 => .diverge
          | fuel' + 1 => contigLoop fat cc fuel' v
      else .ok true

/-- `followChainBackwards`: check the (unmasked) entry of the claimed
chain end, walk backwards to find the start and length, then scan forward
for contiguity. `Size` is the Go `uint64` product. -/
def followChainBackwards (fat : List Nat) (cc : Nat) (rev : List Nat)
    (spc fuel : Nat) (endCluster : Nat) : ExecRes FATChain :=
  (fatGet fat endCluster).bind fun ent =>
    if ent < cc then .err "Internal error: not starting at end of chain"
    else
      (backLoop rev cc fuel endCluster 1).bind fun p =>
        (contigLoop fat cc fuel p.1).bind fun contig =>
          .ok { StartCluster := p.1, Contiguous := contig,
                Size := (p.2 * SectorSize * spc) % 2 ^ 64 }

/-- Second scan of `GetAllChains`: every index whose masked entry is `≥ cc`
seeds one chain; an error from `followChainBackwards` is wrapped and
aborts. -/
def emitLoop (fat : List Nat) (cc : Nat) (rev : List Nat) (spc fuel : Nat) :
    List Nat → List FATChain → ExecRes (List FATChain)
  | [], acc => .ok acc
  | i :: rest, acc =>
    (fatGet fat i).bind fun raw =>
      let v := raw &&& 0x0fffffff
      if v < cc then emitLoop fat cc rev spc fuel rest acc
      else
        match followChainBackwards fat cc rev spc fuel i with
        | .ok chain => emitLoop fat cc rev spc fuel rest (acc ++ [chain])
        | .err e => .err ("Failed following chain back: " ++ e)
        | .fault => .fault
        | .diverge => .diverge

/-- `GetAllChains`: cluster count from the header (a `uint32` division,
panicking when `SectorsPerCluster` is zero), reversed-FAT build, then the
emission scan. -/
def GetAllChains (fs : FAT32Filesystem) : ExecRes (List FATChain) :=
  let spc := fs.Header.BPB.SectorsPerCluster
  if spc = 0 then .fault
  else
    let cc := fs.Header.BPB.LargeSectorCount / spc
    let fuel := fs.FAT.length + cc + 2
    (revBuildLoop fs.FAT cc (List.range' 2 (cc - 2))
        (List.replicate fs.FAT.length 0xffffffff) 0).bind fun p =>
      emitLoop fs.FAT cc p.1 spc fuel (List.range' 2 (cc - 2)) []

/-! ## The limited (windowed) read-seeker

The file implementing `LimitReadSeeker` is not part of the sources given
here; only its tests (`TestLimitedReader`, `TestNestedLimiting`) and its
callers are. The definitions below are therefore modelled from the spec,
sections 4.1 and 8. -/

/-- Modelled from the spec: the state of a `limitedReadSeeker` window
(spec §3 WindowedReader): base offset and size within the ultimate
underlying source, plus the current logical offset. The underlying
source itself is passed to reads as `img`/`imgLen`; by the flattening
rule (§4.1) a window never wraps another window. -/
structure limitedReadSeeker where
  baseOffset : Int
  size : Int
  currentOffset : Int
deriving DecidableEq, Repr

/-- Modelled from the spec: what `LimitReadSeeker` is given — either the
raw underlying source or an existing window over it (the Go code
distinguishes the two by a runtime type inspection). -/
inductive LimitSource where
  | raw : LimitSource
  | window : limitedReadSeeker → LimitSource
deriving DecidableEq, Repr

/-- Modelled from the spec: `LimitReadSeeker(source, baseOffset, limit)`
(spec §4.1). An empty or inverted window (`limit ≤ baseOffset`) fails.
Wrapping an existing window does not nest: the new base offset is
`outer.baseOffset + baseOffset`, after validating `limit ≤ outer.size`
(otherwise an "exceeds parent bound" error, as exercised by
`TestNestedLimiting`). -/
def LimitReadSeeker (src : LimitSource) (baseOffset limit : Int) :
    ExecRes limitedReadSeeker :=
  match src with
  | .raw =>
    if limit ≤ baseOffset then .err "Invalid base offset and limit"
    else .ok { baseOffset := baseOffset, size := limit - baseOffset, currentOffset := 0 }
  | .window w =>
    if w.size < limit then .err "New limit exceeds parent bound"
    else if limit ≤ baseOffset then .err "Invalid base offset and limit"
    else .ok { baseOffset := w.baseOffset + baseOffset, size := limit - baseOffset,
               currentOffset := 0 }

/-- Modelled from the spec: a window `Read` (spec §4.1): truncate the
request to the bytes remaining before `size`, re-seek the underlying
source to `baseOffset + currentOffset`, read (shortened further if the
underlying source ends first), and signal end-of-stream on the same call
when the window's end was reached or exceeded. Returns the bytes, the
advanced window, and the end-of-stream flag. -/
def lrsRead (img : Nat → Nat) (imgLen : Nat) (w : limitedReadSeeker) (n : Nat) :
    List Nat × limitedReadSeeker × Bool :=
  let remaining : Int := w.size - w.currentOffset
  let k : Nat := min n remaining.toNat
  let eof : Bool := decide (w.size ≤ w.currentOffset + n)
  let pos : Nat := (w.baseOffset + w.currentOffset).toNat
  let kk : Nat := min k (imgLen - pos)
  ((List.range kk).map (fun i => img (pos + i)),
   { w with currentOffset := w.currentOffset + kk }, eof)

/-- Read a window to exhaustion: one `Read` whose buffer exceeds the whole
window, so the bytes come back together with the end-of-stream signal. -/
def lrsReadToEOF (img : Nat → Nat) (imgLen : Nat) (w : limitedReadSeeker) :
    List Nat × limitedReadSeeker × Bool :=
  lrsRead img imgLen w (w.size.toNat + 1)

/-! ## Chain readers (`GetClusterSize`, `GetDataOffset`, `GetChainReader`,
`chainReader.Read`) -/

/-- `GetClusterSize`: bytes per cluster as an `int64`. -/
def GetClusterSize (fs : FAT32Filesystem) : Int :=
  (fs.Header.BPB.SectorsPerCluster : Int) * SectorSize

/-- The value `GetDataOffset` computes when the cluster size is non-zero:
byte offset of `offset` (mod cluster size) into cluster `c`. The
`FATCount * SectorsPerFAT` product is a `uint32` multiplication and
wraps. -/
def GetDataOffsetVal (fs : FAT32Filesystem) (c offset : Nat) : Int :=
  let firstDataSector : Int := (fs.Header.BPB.ReservedSectorCount : Int) +
    ((fs.Header.BPB.FATCount * fs.Header.EBR.SectorsPerFAT) % 2 ^ 32 : Nat)
  let clusterSize := GetClusterSize fs
  let offsetInCluster := (offset : Int) % clusterSize
  firstDataSector * SectorSize + ((c : Int) - 2) * clusterSize + offsetInCluster

/-- `GetDataOffset`: the source computes `int64(offset) % clusterSize`,
an integer division that panics with a divide-by-zero when the cluster
size is 0 (that is, when `SectorsPerCluster` is 0); otherwise the offset
arithmetic is total. -/
def GetDataOffset (fs : FAT32Filesystem) (c offset : Nat) : ExecRes Int :=
  if GetClusterSize fs = 0 then .fault
  else .ok (GetDataOffsetVal fs c offset)

/-- State of the fragmented cluster-walking reader (`chainReader` in
fat.go). All three fields are `uint32` in the source. -/
structure chainReader where
  readOffset : Nat
  currentCluster : Nat
  size : Nat
deriving DecidableEq, Repr

/-- The reader `GetChainReader` hands back: the contiguous fast path is a
window over the underlying content, the fragmented path the
cluster-walking reader. -/
inductive ChainReaderKind where
  | window : limitedReadSeeker → ChainReaderKind
  | walker : chainReader → ChainReaderKind
deriving DecidableEq, Repr

/-- Reinterpret a Go `uint64` value as the `int64` it converts to. -/
def toInt64 (n : Nat) : Int :=
  if n % 2 ^ 64 < 2 ^ 63 then ((n % 2 ^ 64 : Nat) : Int)
  else ((n % 2 ^ 64 : Nat) : Int) - 2 ^ 64

/-- `GetChainReader`: a contiguous chain gets the windowed fast path over
`[dataStart, dataStart + int64(Size))`; any other chain gets a
cluster-walking reader whose `size` field is `uint32(c.Size)` — the
64-bit size truncated to 32 bits. -/
def GetChainReader (fs : FAT32Filesystem) (c : FATChain) : ExecRes ChainReaderKind :=
  if c.Contiguous then
    (GetDataOffset fs c.StartCluster 0).bind fun dataStart =>
      let limit := dataStart + toInt64 c.Size
      match LimitReadSeeker .raw dataStart limit with
      | .ok w => .ok (.window w)
      | .err e => .err e
      | .fault => .fault
      | .diverge => .diverge
  else
    .ok (.walker { readOffset := 0, currentCluster := c.StartCluster,
                   size := c.Size % 2 ^ 32 })

/-- The `for currentAmountRead < bytesToRead` loop of `chainReader.Read`.
Arguments after the fixed parameters: `currentAmountRead`, `readOffset`,
`currentCluster`, and the bytes written so far. Results: bytes written,
new `readOffset`, new `currentCluster`, and whether the loop returned
early with the underlying reader's end-of-stream. Per iteration it reads
`min(bytesToRead, remainingInCluster)` bytes — the source really uses the
whole `bytesToRead` here, not the amount still missing — into
`dst[currentAmountRead:dstLimit]`, which panics when `dstLimit` exceeds
the buffer (the buffer's capacity is modelled as its length). A read
beyond the end of the underlying source returns what was read so far with
the end-of-stream signal; a short read near the end leaves the untouched
buffer bytes (zeros) in place, as the source ignores the returned count.
The cluster only advances when the quota is not yet met. -/
def chainReadLoop (fs : FAT32Filesystem) (img : Nat → Nat) (imgLen : Nat)
    (clusterSize bytesToRead dstLen : Nat) :
    Nat → Nat → Nat → List Nat → ExecRes (List Nat × Nat × Nat × Bool)
  | cur, ro, cl, acc =>
    if h : cur < bytesToRead then
      if hcs : clusterSize = 0 then .fault
      else
        let offsetInCluster := ro % clusterSize
        let remainingInCluster := clusterSize - offsetInCluster
        let toRead := min bytesToRead remainingInCluster
        (GetDataOffset fs cl offsetInCluster).bind fun dataOffset =>
        if dataOffset < 0 then .err "Error seeking in image"
        else
          let off := dataOffset.toNat
          let dstLimit := cur + toRead
          if dstLen < dstLimit then .fault
          else if imgLen ≤ off then .ok (acc, ro, cl, true)
          else
            let seg := (List.range toRead).map
              (fun i => if off + i < imgLen then img (off + i) else 0)
            let cur' := cur + toRead
            let ro' := (ro + toRead) % 2 ^ 32
            if bytesToRead ≤ cur' then .ok (acc ++ seg, ro', cl, false)
            else
              (fatGet fs.FAT cl).bind fun nextCluster =>
                if nextCluster = 0 ∨ 0x0ffffff7 ≤ nextCluster then
                  .err "Internal error: at chain end"
                else
                  chainReadLoop fs img imgLen clusterSize bytesToRead dstLen
                    cur' ro' nextCluster (acc ++ seg)
    else .ok (acc, ro, cl, false)
termination_by cur => bytesToRead - cur
decreasing_by
  have hlt : ro % clusterSize < clusterSize := Nat.mod_lt ro (Nat.pos_of_ne_zero hcs)
  omega

/-- `chainReader.Read` with a buffer of length `dstLen`: truncate to the
bytes remaining before `size` (remembering to report end-of-stream when
truncation happened), run the cluster loop, and return the bytes, the
advanced reader and the end-of-stream flag. -/
def chainReaderRead (fs : FAT32Filesystem) (img : Nat → Nat) (imgLen : Nat)
    (st : chainReader) (dstLen : Nat) : ExecRes (List Nat × chainReader × Bool) :=
  let clusterSize := (GetClusterSize fs).toNat
  let bytesRemaining : Int := (st.size : Int) - (st.readOffset : Int)
  let reachedEOF : Bool := decide (bytesRemaining < (dstLen : Int))
  let bytesToRead : Nat := if bytesRemaining < (dstLen : Int) then bytesRemaining.toNat else dstLen
  match chainReadLoop fs img imgLen clusterSize bytesToRead dstLen
      0 st.readOffset st.currentCluster [] with
  | .ok (bytes, ro', cl', early) =>
    .ok (bytes, { st with readOffset := ro', currentCluster := cl' }, reachedEOF || early)
  | .err e => .err e
  | .fault => .fault
  | .diverge => .diverge

/-- Build the cluster-walking reader state that `GetChainReader`'s
non-contiguous branch builds for a chain (the fragmented path run "over
the same chain"). -/
def mkChainWalker (c : FATChain) : chainReader :=
  { readOffset := 0, currentCluster := c.StartCluster, size := c.Size % 2 ^ 32 }

/-- Read a cluster-walking reader to exhaustion: one `Read` whose buffer
exceeds the remaining size, so the bytes come back together with the
end-of-stream signal. -/
def chainReadToEOF (fs : FAT32Filesystem) (img : Nat → Nat) (imgLen : Nat)
    (st : chainReader) : ExecRes (List Nat × chainReader × Bool) :=
  chainReaderRead fs img imgLen st (st.size + 1)

/-- Fuel-indexed restatement of `chainReadLoop`, structurally recursive on
an explicit bound so that concrete runs evaluate inside the kernel;
`chainReadLoop_eq_fuel` shows it agrees with the loop whenever the fuel
exceeds the remaining read quota. -/
def chainReadLoopFuel (fs : FAT32Filesystem) (img : Nat → Nat) (imgLen : Nat)
    (clusterSize bytesToRead dstLen : Nat) :
    Nat → Nat → Nat → Nat → List Nat → ExecRes (List Nat × Nat × Nat × Bool)
  | 0, _, _, _, _ => .diverge
  | fuel + 1, cur, ro, cl, acc =>
    if cur < bytesToRead then
      if clusterSize = 0 then .fault
      else
        let offsetInCluster := ro % clusterSize
        let remainingInCluster := clusterSize - offsetInCluster
        let toRead := min bytesToRead remainingInCluster
        (GetDataOffset fs cl offsetInCluster).bind fun dataOffset =>
        if dataOffset < 0 then .err "Error seeking in image"
        else
          let off := dataOffset.toNat
          let dstLimit := cur + toRead
          if dstLen < dstLimit then .fault
          else if imgLen ≤ off then .ok (acc, ro, cl, true)
          else
            let seg := (List.range toRead).map
              (fun i => if off + i < imgLen then img (off + i) else 0)
            let cur' := cur + toRead
            let ro' := (ro + toRead) % 2 ^ 32
            if bytesToRead ≤ cur' then .ok (acc ++ seg, ro', cl, false)
            else
              (fatGet fs.FAT cl).bind fun nextCluster =>
                if nextCluster = 0 ∨ 0x0ffffff7 ≤ nextCluster then
                  .err "Internal error: at chain end"
                else
                  chainReadLoopFuel fs img imgLen clusterSize bytesToRead dstLen
                    fuel cur' ro' nextCluster (acc ++ seg)
    else .ok (acc, ro, cl, false)

/-- `chainReaderRead` computed through the fuel-indexed loop: the buffer
length plus one always bounds the iteration count, since each iteration
reads at least one byte of the quota `bytesToRead ≤ dstLen`. -/
def chainReaderReadFuel (fs : FAT32Filesystem) (img : Nat → Nat) (imgLen : Nat)
    (st : chainReader) (dstLen : Nat) : ExecRes (List Nat × chainReader × Bool) :=
  let clusterSize := (GetClusterSize fs).toNat
  let bytesRemaining : Int := (st.size : Int) - (st.readOffset : Int)
  let reachedEOF : Bool := decide (bytesRemaining < (dstLen : Int))
  let bytesToRead : Nat := if bytesRemaining < (dstLen : Int) then bytesRemaining.toNat else dstLen
  match chainReadLoopFuel fs img imgLen clusterSize bytesToRead dstLen (dstLen + 1)
      0 st.readOffset st.currentCluster [] with
  | .ok (bytes, ro', cl', early) =>
    .ok (bytes, { st with readOffset := ro', currentCluster := cl' }, reachedEOF || early)
  | .err e => .err e
  | .fault => .fault
  | .diverge => .diverge

/-! ## Specification-side helper definitions

Pure functions used to state and prove properties of the loops above;
they are not part of the embedding. -/

/-- Masked value of FAT entry `i`: the low 28 bits (out-of-range indices
read 0, which the theorems exclude by bounds hypotheses). -/
def mval (fat : List Nat) (i : Nat) : Nat := fat.getD i 0 &&& 0x0fffffff

/-- Iteration `i` of the first `GetAllChains` scan writes `i` into
reversed-FAT cell `j`. -/
def writesTo (fat : List Nat) (cc i j : Nat) : Prop :=
  mval fat i = j ∧ j < cc ∧ j ≠ 0

instance (fat : List Nat) (cc i j : Nat) : Decidable (writesTo fat cc i j) := by
  unfold writesTo; infer_instance

/-- Pure form of the reversed-FAT build over index list `l`. -/
def revApply (fat : List Nat) (cc : Nat) (l : List Nat) (rev : List Nat) : List Nat :=
  l.foldl (fun r i =>
    if cc ≤ mval fat i then r
    else if mval fat i = 0 then r
    else r.set (mval fat i) i) rev

/-- Number of end-of-chain (tail) entries among the indices of `l`. -/
def tailsCount (fat : List Nat) (cc : Nat) (l : List Nat) : Nat :=
  (l.filter (fun i => decide (cc ≤ mval fat i))).length

/-- Forward walk along masked FAT links: from index `i`, step through
valid links until an end-of-chain entry (result: that tail index and the
number of steps), a free entry (`none`), or fuel exhaustion (`none`). -/
def walkT (fat : List Nat) (cc : Nat) : Nat → Nat → Option (Nat × Nat)
  | 0, _ => none
  | fuel + 1, i =>
    if cc ≤ mval fat i then some (i, 0)
    else if mval fat i = 0 then none
    else
      match walkT fat cc fuel (mval fat i) with
      | some p => some (p.1, p.2 + 1)
      | none => none

/-- The non-zero entries of the table that reach an end-of-chain mark by
following forward links (fuel `cc` suffices: a successful walk never
repeats an index). -/
def reachableNonzero (fat : List Nat) (cc : Nat) : Finset Nat :=
  (Finset.Ico 2 cc).filter
    (fun i => mval fat i ≠ 0 ∧ (walkT fat cc cc i).isSome)

/-- The entries whose forward walk ends at tail `t`. -/
def fiber (fat : List Nat) (cc t : Nat) : Finset Nat :=
  (Finset.Ico 2 cc).filter (fun i => (walkT fat cc cc i).map Prod.fst = some t)

/-! ## Characterizations of the two `GetAllChains` scans -/

theorem fatGet_eq_ok {l : List Nat} {i : Nat} (h : i < l.length) :
    fatGet l i = .ok (l.getD i 0) := by
  simp [fatGet, List.get?_eq_getElem?, List.getElem?_eq_getElem h, List.getD_eq_getElem?_getD,
    List.getElem?_eq_getElem h]

theorem length_revApply (fat : List Nat) (cc : Nat) (l rev : List Nat) :
    (revApply fat cc l rev).length = rev.length := by
  induction l generalizing rev with
  | nil => rfl
  | cons i rest ih =>
    simp only [revApply, List.foldl_cons] at *
    split
    · exact ih rev
    · split
      · exact ih rev
      · rw [ih (rev.set (mval fat i) i)]; simp

/-- Running the first scan: under in-bounds conditions it succeeds, its
reversed FAT is `revApply`, and its count adds `tailsCount`. -/
theorem revBuildLoop_ok (fat : List Nat) (cc : Nat) :
    ∀ (l : List Nat) (rev : List Nat) (count : Nat),
      (∀ i ∈ l, i < fat.length) →
      (∀ i ∈ l, ¬ cc ≤ mval fat i → mval fat i ≠ 0 → mval fat i < rev.length) →
      revBuildLoop fat cc l rev count = .ok (revApply fat cc l rev, count + tailsCount fat cc l)
  | [], rev, count, _, _ => by simp [revBuildLoop, revApply, tailsCount]
  | i :: rest, rev, count, hmem, hw => by
    have hi : i < fat.length := hmem i (by simp)
    rw [revBuildLoop, fatGet_eq_ok hi]
    show (if cc ≤ mval fat i then revBuildLoop fat cc rest rev (count + 1)
      else if mval fat i = 0 then revBuildLoop fat cc rest rev count
      else (listSet rev (mval fat i) i).bind fun rev' => revBuildLoop fat cc rest rev' count) = _
    by_cases h1 : cc ≤ mval fat i
    · rw [if_pos h1, revBuildLoop_ok fat cc rest rev (count + 1)
        (fun j hj => hmem j (by simp [hj])) (fun j hj => hw j (by simp [hj]))]
      simp only [revApply, List.foldl_cons, if_pos h1, tailsCount, List.filter_cons,
        decide_eq_true h1]
      simp [tailsCount, Nat.add_assoc, Nat.add_comm 1]
    · rw [if_neg h1]
      by_cases h2 : mval fat i = 0
      · have hcc0 : cc ≠ 0 := by omega
        rw [if_pos h2, revBuildLoop_ok fat cc rest rev count
          (fun j hj => hmem j (by simp [hj])) (fun j hj => hw j (by simp [hj]))]
        simp only [revApply, List.foldl_cons, if_neg h1, if_pos h2, tailsCount,
          List.filter_cons]
        simp [tailsCount, h1, h2, hcc0]
      · rw [if_neg h2]
        have hwb : mval fat i < rev.length := hw i (by simp) h1 h2
        rw [listSet, if_pos hwb]
        show revBuildLoop fat cc rest (rev.set (mval fat i) i) count = _
        rw [revBuildLoop_ok fat cc rest (rev.set (mval fat i) i) count
          (fun j hj => hmem j (by simp [hj]))
          (fun j hj ha hb => by rw [List.length_set]; exact hw j (by simp [hj]) ha hb)]
        simp only [revApply, List.foldl_cons, if_neg h1, if_neg h2, tailsCount,
          List.filter_cons]
        simp [tailsCount, h1, h2]

/-- Cell `j` of the built reversed FAT holds the most recent writer among
`l`, and is untouched when no index of `l` writes to it. -/
theorem revApply_getD (fat : List Nat) (cc : Nat) :
    ∀ (l : List Nat) (rev : List Nat) (j : Nat) (d : Nat),
      (revApply fat cc l rev).getD j d =
        match l.reverse.find? (fun i => decide (writesTo fat cc i j)) with
        | some i => if j < rev.length then i else rev.getD j d
        | none => rev.getD j d
  | [], rev, j, d => by simp [revApply]
  | i :: rest, rev, j, d => by
    have hstep : revApply fat cc (i :: rest) rev = revApply fat cc rest
        (if cc ≤ mval fat i then rev else if mval fat i = 0 then rev
         else rev.set (mval fat i) i) := rfl
    rw [hstep, revApply_getD fat cc rest _ j d]
    simp only [List.reverse_cons, List.find?_append]
    rcases hfind : rest.reverse.find? (fun i => decide (writesTo fat cc i j)) with _ | w
    · simp only [Option.none_or]
      by_cases hw : writesTo fat cc i j
      · have hwt : writesTo fat cc i j := hw
        obtain ⟨hv, hjcc, hj0⟩ := hw
        have h1 : ¬ cc ≤ mval fat i := by omega
        have h2 : mval fat i ≠ 0 := by omega
        rw [if_neg h1, if_neg h2, hv]
        have hsing : List.find? (fun i => decide (writesTo fat cc i j)) [i] = some i := by
          simp [List.find?_singleton, hwt]
        rw [hsing]
        by_cases hlen : j < rev.length
        · simp [List.getD_eq_getElem?_getD, List.getElem?_set_self hlen, hlen]
        · simp only [if_neg hlen]
          have hle : rev.length ≤ j := Nat.le_of_not_lt hlen
          simp [List.getD_eq_getElem?_getD, List.getElem?_eq_none (l := rev.set j i)
            (by simpa using hle), List.getElem?_eq_none hle]
      · have hsing : List.find? (fun i => decide (writesTo fat cc i j)) [i] = none := by
          simp [List.find?_singleton, hw]
        rw [hsing]
        by_cases h1 : cc ≤ mval fat i
        · rw [if_pos h1]
        · by_cases h2 : mval fat i = 0
          · rw [if_neg h1, if_pos h2]
          · rw [if_neg h1, if_neg h2]
            have hne : mval fat i ≠ j := by
              intro hv
              exact hw ⟨hv, by omega, by omega⟩
            simp [List.getD_eq_getElem?_getD, List.getElem?_set_ne hne]
    · have hor : (some w).or (List.find? (fun i => decide (writesTo fat cc i j)) [i]) =
          some w := rfl
      rw [hor]
      have hlen : (if cc ≤ mval fat i then rev else if mval fat i = 0 then rev
          else rev.set (mval fat i) i).length = rev.length := by
        split
        · rfl
        · split
          · rfl
          · exact List.length_set rev _ _
      rw [hlen]
      by_cases hjlen : j < rev.length
      · simp [hjlen]
      · simp only [if_neg hjlen]
        have hle : rev.length ≤ j := Nat.le_of_not_lt hjlen
        split
        · rfl
        · split
          · rfl
          · simp [List.getD_eq_getElem?_getD, List.getElem?_eq_none (l := rev.set (mval fat i) i)
              (by simpa using hle), List.getElem?_eq_none hle]

/-- Reading an in-bounds index never faults, and yields the element. -/
theorem fatGet_of_getElem? {l : List Nat} {i v : Nat} (h : l[i]? = some v) :
    fatGet l i = .ok v := by
  simp [fatGet, List.get?_eq_getElem?, h]

/-- Reading an out-of-bounds index faults. -/
theorem fatGet_of_le {l : List Nat} {i : Nat} (h : l.length ≤ i) :
    fatGet l i = .fault := by
  simp [fatGet, List.get?_eq_getElem?, List.getElem?_eq_none h]

/-- Running the second scan: when every tail's backward walk delivers the
chain `g i`, the scan collects exactly the chains of the tail indices of
`l`, in order. -/
theorem emitLoop_ok (fat : List Nat) (cc : Nat) (rev : List Nat) (spc fuel : Nat)
    (g : Nat → FATChain) :
    ∀ (l : List Nat) (acc : List FATChain),
      (∀ i ∈ l, i < fat.length) →
      (∀ i ∈ l, cc ≤ mval fat i →
        followChainBackwards fat cc rev spc fuel i = .ok (g i)) →
      emitLoop fat cc rev spc fuel l acc =
        .ok (acc ++ (l.filter (fun i => decide (cc ≤ mval fat i))).map g)
  | [], acc, _, _ => by simp [emitLoop]
  | i :: rest, acc, hmem, hfollow => by
    have hi : i < fat.length := hmem i (by simp)
    rw [emitLoop, fatGet_eq_ok hi]
    show (if mval fat i < cc then
        emitLoop fat cc rev spc fuel rest acc
      else match followChainBackwards fat cc rev spc fuel i with
        | .ok chain => emitLoop fat cc rev spc fuel rest (acc ++ [chain])
        | .err e => .err ("Failed following chain back: " ++ e)
        | .fault => .fault
        | .diverge => .diverge) = _
    by_cases h1 : mval fat i < cc
    · rw [if_pos h1, emitLoop_ok fat cc rev spc fuel g rest acc
        (fun j hj => hmem j (by simp [hj])) (fun j hj => hfollow j (by simp [hj]))]
      have hd : decide (cc ≤ mval fat i) = false := by simp; omega
      simp [List.filter_cons, hd]
    · rw [if_neg h1, hfollow i (by simp) (by omega)]
      show emitLoop fat cc rev spc fuel rest (acc ++ [g i]) = _
      rw [emitLoop_ok fat cc rev spc fuel g rest (acc ++ [g i])
          (fun j hj => hmem j (by simp [hj])) (fun j hj => hfollow j (by simp [hj]))]
      have hd : decide (cc ≤ mval fat i) = true := by simp; omega
      simp [List.filter_cons, hd]

/-- A filter over a duplicate-free list whose predicate holds exactly at
`c` gives the singleton `[c]`. -/
theorem filter_eq_singleton {p : Nat → Bool} :
    ∀ (l : List Nat), l.Nodup → ∀ c, c ∈ l → p c = true →
      (∀ x ∈ l, x ≠ c → p x = false) → l.filter p = [c]
  | [], _, c, hc, _, _ => by simp at hc
  | x :: rest, hnd, c, hc, hpc, hother => by
    by_cases hxc : x = c
    · subst hxc
      have hrest : rest.filter p = [] := by
        rw [List.filter_eq_nil_iff]
        intro y hy
        have hyx : y ≠ x := fun he => (List.nodup_cons.mp hnd).1 (he ▸ hy)
        simp [hother y (List.mem_cons_of_mem _ hy) hyx]
      simp [List.filter_cons, hpc, hrest]
    · have hcr : c ∈ rest := by
        rcases List.mem_cons.mp hc with h | h
        · exact absurd h.symm hxc
        · exact h
      have hpx : p x = false := hother x (by simp) hxc
      rw [List.filter_cons, if_neg (by simp [hpx])]
      exact filter_eq_singleton rest (List.nodup_cons.mp hnd).2 c hcr hpc
        (fun y hy => hother y (List.mem_cons_of_mem _ hy))

/-! ## The scans cannot fault under in-bounds headers, and can never
return a Go error at all -/

theorem backLoop_result_lt (rev : List Nat) (cc : Nat) (fuel : Nat) :
    ∀ (s n : Nat) (p : Nat × Nat), s < cc →
      backLoop rev cc fuel s n = .ok p → p.1 < cc := by
  induction fuel with
  | zero =>
    intro s n p hs h
    rw [backLoop] at h
    rcases hg : rev[s]? with _ | r
    · rw [fatGet, List.get?_eq_getElem?, hg] at h
      simp [ExecRes.bind] at h
    · rw [fatGet, List.get?_eq_getElem?, hg] at h
      simp only [ExecRes.bind] at h
      by_cases hr : r < cc
      · rw [if_pos hr] at h
        simp at h
      · rw [if_neg hr] at h
        injection h with h
        rw [← h]
        exact hs
  | succ fuel ih =>
    intro s n p hs h
    rw [backLoop] at h
    rcases hg : rev[s]? with _ | r
    · rw [fatGet, List.get?_eq_getElem?, hg] at h
      simp [ExecRes.bind] at h
    · rw [fatGet, List.get?_eq_getElem?, hg] at h
      simp only [ExecRes.bind] at h
      by_cases hr : r < cc
      · rw [if_pos hr] at h
        exact ih r (n + 1) p hr h
      · rw [if_neg hr] at h
        injection h with h
        rw [← h]
        exact hs

theorem backLoop_not_fault (rev : List Nat) (cc : Nat) (hlen : cc ≤ rev.length)
    (fuel : Nat) : ∀ (s n : Nat), s < cc → backLoop rev cc fuel s n ≠ .fault := by
  induction fuel with
  | zero =>
    intro s n hs
    obtain ⟨v, hg⟩ : ∃ v, rev[s]? = some v :=
      ⟨_, List.getElem?_eq_getElem (by omega)⟩
    rw [backLoop, fatGet_of_getElem? hg]
    simp only [ExecRes.bind]
    by_cases hr : v < cc
    · rw [if_pos hr]
      simp
    · rw [if_neg hr]
      simp
  | succ fuel ih =>
    intro s n hs
    obtain ⟨v, hg⟩ : ∃ v, rev[s]? = some v :=
      ⟨_, List.getElem?_eq_getElem (by omega)⟩
    rw [backLoop, fatGet_of_getElem? hg]
    simp only [ExecRes.bind]
    by_cases hr : v < cc
    · rw [if_pos hr]
      exact ih v (n + 1) hr
    · rw [if_neg hr]
      simp

theorem backLoop_not_err (rev : List Nat) (cc : Nat) (fuel : Nat) :
    ∀ (s n : Nat) (e : String), backLoop rev cc fuel s n ≠ .err e := by
  induction fuel with
  | zero =>
    intro s n e
    rw [backLoop]
    rcases hg : rev[s]? with _ | r
    · rw [fatGet, List.get?_eq_getElem?, hg]
      simp [ExecRes.bind]
    · rw [fatGet, List.get?_eq_getElem?, hg]
      simp only [ExecRes.bind]
      by_cases hr : r < cc
      · rw [if_pos hr]
        simp
      · rw [if_neg hr]
        simp
  | succ fuel ih =>
    intro s n e
    rw [backLoop]
    rcases hg : rev[s]? with _ | r
    · rw [fatGet, List.get?_eq_getElem?, hg]
      simp [ExecRes.bind]
    · rw [fatGet, List.get?_eq_getElem?, hg]
      simp only [ExecRes.bind]
      by_cases hr : r < cc
      · rw [if_pos hr]
        exact ih r (n + 1) e
      · rw [if_neg hr]
        simp

theorem contigLoop_not_fault (fat : List Nat) (cc : Nat) (hlen : cc ≤ fat.length)
    (fuel : Nat) : ∀ (cur : Nat), cur < cc → contigLoop fat cc fuel cur ≠ .fault := by
  induction fuel with
  | zero =>
    intro cur hcur
    obtain ⟨v, hg⟩ : ∃ v, fat[cur]? = some v :=
      ⟨_, List.getElem?_eq_getElem (by omega)⟩
    rw [contigLoop, fatGet_of_getElem? hg]
    simp only [ExecRes.bind]
    by_cases hv : v < cc
    · rw [if_pos hv]
      by_cases hne : v ≠ cur + 1
      · rw [if_pos hne]
        simp
      · rw [if_neg hne]
        simp
    · rw [if_neg hv]
      simp
  | succ fuel ih =>
    intro cur hcur
    obtain ⟨v, hg⟩ : ∃ v, fat[cur]? = some v :=
      ⟨_, List.getElem?_eq_getElem (by omega)⟩
    rw [contigLoop, fatGet_of_getElem? hg]
    simp only [ExecRes.bind]
    by_cases hv : v < cc
    · rw [if_pos hv]
      by_cases hne : v ≠ cur + 1
      · rw [if_pos hne]
        simp
      · rw [if_neg hne]
        exact ih v hv
    · rw [if_neg hv]
      simp

theorem contigLoop_not_err (fat : List Nat) (cc : Nat) (fuel : Nat) :
    ∀ (cur : Nat) (e : String), contigLoop fat cc fuel cur ≠ .err e := by
  induction fuel with
  | zero =>
    intro cur e
    rw [contigLoop]
    rcases hg : fat[cur]? with _ | v
    · rw [fatGet, List.get?_eq_getElem?, hg]
      simp [ExecRes.bind]
    · rw [fatGet, List.get?_eq_getElem?, hg]
      simp only [ExecRes.bind]
      by_cases hv : v < cc
      · rw [if_pos hv]
        by_cases hne : v ≠ cur + 1
        · rw [if_pos hne]
          simp
        · rw [if_neg hne]
          simp
      · rw [if_neg hv]
        simp
  | succ fuel ih =>
    intro cur e
    rw [contigLoop]
    rcases hg : fat[cur]? with _ | v
    · rw [fatGet, List.get?_eq_getElem?, hg]
      simp [ExecRes.bind]
    · rw [fatGet, List.get?_eq_getElem?, hg]
      simp only [ExecRes.bind]
      by_cases hv : v < cc
      · rw [if_pos hv]
        by_cases hne : v ≠ cur + 1
        · rw [if_pos hne]
          simp
        · rw [if_neg hne]
          exact ih v e
      · rw [if_neg hv]
        simp

theorem GetAllChains_eq (fs : FAT32Filesystem) :
    GetAllChains fs =
      if fs.Header.BPB.SectorsPerCluster = 0 then .fault
      else
        (revBuildLoop fs.FAT
            (fs.Header.BPB.LargeSectorCount / fs.Header.BPB.SectorsPerCluster)
            (List.range' 2
              (fs.Header.BPB.LargeSectorCount / fs.Header.BPB.SectorsPerCluster - 2))
            (List.replicate fs.FAT.length 0xffffffff) 0).bind fun p =>
          emitLoop fs.FAT
            (fs.Header.BPB.LargeSectorCount / fs.Header.BPB.SectorsPerCluster) p.1
            fs.Header.BPB.SectorsPerCluster
            (fs.FAT.length +
              (fs.Header.BPB.LargeSectorCount / fs.Header.BPB.SectorsPerCluster) + 2)
            (List.range' 2
              (fs.Header.BPB.LargeSectorCount / fs.Header.BPB.SectorsPerCluster - 2))
            [] := rfl

/-- `followChainBackwards` cannot return an error when its caller checked
that the masked entry is an end-of-chain mark: the raw entry is at least
the masked one. -/
theorem follow_not_err (fat : List Nat) (cc : Nat) (rev : List Nat)
    (spc fuel i : Nat) (e : String) (hi : i < fat.length) (hcc : cc ≤ mval fat i) :
    followChainBackwards fat cc rev spc fuel i ≠ .err e := by
  rw [followChainBackwards, fatGet_eq_ok hi]
  simp only [ExecRes.bind]
  have hent : ¬ fat.getD i 0 < cc := by
    have hle : mval fat i ≤ fat.getD i 0 := Nat.and_le_left
    omega
  rw [if_neg hent]
  rcases hb : backLoop rev cc fuel i 1 with p | e' | _ | _
  · simp only
    rcases hc : contigLoop fat cc fuel p.1 with b | e' | _ | _
    · simp
    · exact absurd hc (contigLoop_not_err fat cc fuel p.1 e')
    · simp
    · simp
  · exact absurd hb (backLoop_not_err rev cc fuel i 1 e')
  · simp
  · simp

theorem follow_not_fault (fat : List Nat) (cc : Nat) (rev : List Nat)
    (spc fuel i : Nat) (hi : i < cc) (hccf : cc ≤ fat.length)
    (hccr : cc ≤ rev.length) :
    followChainBackwards fat cc rev spc fuel i ≠ .fault := by
  rw [followChainBackwards, fatGet_eq_ok (by omega)]
  simp only [ExecRes.bind]
  by_cases hent : fat.getD i 0 < cc
  · rw [if_pos hent]
    simp
  · rw [if_neg hent]
    rcases hb : backLoop rev cc fuel i 1 with p | e' | _ | _
    · simp only
      rcases hc : contigLoop fat cc fuel p.1 with b | e' | _ | _
      · simp
      · simp
      · exact absurd hc
          (contigLoop_not_fault fat cc hccf fuel p.1
            (backLoop_result_lt rev cc fuel i 1 p hi hb))
      · simp
    · simp
    · exact absurd hb (backLoop_not_fault rev cc hccr fuel i 1 hi)
    · simp

theorem emitLoop_not_fault (fat : List Nat) (cc : Nat) (rev : List Nat)
    (spc fuel : Nat) (hccf : cc ≤ fat.length) (hccr : cc ≤ rev.length) :
    ∀ (l : List Nat) (acc : List FATChain), (∀ i ∈ l, i < cc) →
      emitLoop fat cc rev spc fuel l acc ≠ .fault
  | [], acc, _ => by simp [emitLoop]
  | i :: rest, acc, hmem => by
    have hi : i < cc := hmem i (by simp)
    rw [emitLoop, fatGet_eq_ok (by omega)]
    show (if mval fat i < cc then
        emitLoop fat cc rev spc fuel rest acc
      else match followChainBackwards fat cc rev spc fuel i with
        | .ok chain => emitLoop fat cc rev spc fuel rest (acc ++ [chain])
        | .err e => .err ("Failed following chain back: " ++ e)
        | .fault => .fault
        | .diverge => .diverge) ≠ _
    by_cases h1 : mval fat i < cc
    · rw [if_pos h1]
      exact emitLoop_not_fault fat cc rev spc fuel hccf hccr rest acc
        (fun j hj => hmem j (by simp [hj]))
    · rw [if_neg h1]
      rcases hf : followChainBackwards fat cc rev spc fuel i with ch | e | _ | _
    
      · simp only
        exact emitLoop_not_fault fat cc rev spc fuel hccf hccr rest (acc ++ [ch])
          (fun j hj => hmem j (by simp [hj]))
      · simp
      · exact absurd hf (follow_not_fault fat cc rev spc fuel i hi hccf hccr)
      · simp

theorem emitLoop_not_err (fat : List Nat) (cc : Nat) (rev : List Nat)
    (spc fuel : Nat) :
    ∀ (l : List Nat) (acc : List FATChain) (e : String),
      emitLoop fat cc rev spc fuel l acc ≠ .err e
  | [], acc, e => by simp [emitLoop]
  | i :: rest, acc, e => by
    rw [emitLoop]
    rcases hg : fat[i]? with _ | raw
    · rw [fatGet, List.get?_eq_getElem?, hg]
      simp [ExecRes.bind]
    · have hi : i < fat.length := by
        rcases List.getElem?_eq_some_iff.mp hg with ⟨h, _⟩
        exact h
      rw [fatGet_of_getElem? hg]
      simp only [ExecRes.bind]
      by_cases h1 : raw &&& 0x0fffffff < cc
      · rw [if_pos h1]
        exact emitLoop_not_err fat cc rev spc fuel rest acc e
      · rw [if_neg h1]
        have hraw : fat.getD i 0 = raw := by
          simp [List.getD_eq_getElem?_getD, hg]
        have hcc : cc ≤ mval fat i := by
          unfold mval
          rw [hraw]
          omega
        rcases hf : followChainBackwards fat cc rev spc fuel i with ch | e' | _ | _
        · simp only
          exact emitLoop_not_err fat cc rev spc fuel rest (acc ++ [ch]) e
        · exact absurd hf (follow_not_err fat cc rev spc fuel i e' hi hcc)
        · simp
        · simp

theorem revBuildLoop_not_err (fat : List Nat) (cc : Nat) :
    ∀ (l : List Nat) (rev : List Nat) (count : Nat) (e : String),
      revBuildLoop fat cc l rev count ≠ .err e
  | [], rev, count, e => by simp [revBuildLoop]
  | i :: rest, rev, count, e => by
    rw [revBuildLoop]
    rcases hg : fat[i]? with _ | raw
    · rw [fatGet, List.get?_eq_getElem?, hg]
      simp [ExecRes.bind]
    · rw [fatGet_of_getElem? hg]
      simp only [ExecRes.bind]
      by_cases h1 : cc ≤ raw &&& 0x0fffffff
      · rw [if_pos h1]
        exact revBuildLoop_not_err fat cc rest rev (count + 1) e
      · rw [if_neg h1]
        by_cases h2 : raw &&& 0x0fffffff = 0
        · rw [if_pos h2]
          exact revBuildLoop_not_err fat cc rest rev count e
        · rw [if_neg h2, listSet]
          by_cases h3 : raw &&& 0x0fffffff < rev.length
          · rw [if_pos h3]
            exact revBuildLoop_not_err fat cc rest (rev.set _ i) count e
          · rw [if_neg h3]
            simp [ExecRes.bind]

/-- The first scan faults whenever the index list reaches past the end of
the FAT slice. -/
theorem revBuildLoop_fault_of_mem (fat : List Nat) (cc : Nat) :
    ∀ (l : List Nat) (rev : List Nat) (count : Nat),
      (∃ i ∈ l, fat.length ≤ i) → revBuildLoop fat cc l rev count = .fault
  | [], rev, count, hex => by simp at hex
  | i :: rest, rev, count, hex => by
    rw [revBuildLoop]
    by_cases hi : fat.length ≤ i
    · rw [fatGet_of_le hi]
      rfl
    · have hrest : ∃ j ∈ rest, fat.length ≤ j := by
        rcases hex with ⟨j, hj, hlen⟩
        rcases List.mem_cons.mp hj with rfl | hjr
        · omega
        · exact ⟨j, hjr, hlen⟩
      have hlt : i < fat.length := by omega
      obtain ⟨raw, hg⟩ : ∃ v, fat[i]? = some v := ⟨_, List.getElem?_eq_getElem hlt⟩
      rw [fatGet_of_getElem? hg]
      simp only [ExecRes.bind]
      by_cases h1 : cc ≤ raw &&& 0x0fffffff
      · rw [if_pos h1]
        exact revBuildLoop_fault_of_mem fat cc rest rev (count + 1) hrest
      · rw [if_neg h1]
        by_cases h2 : raw &&& 0x0fffffff = 0
        · rw [if_pos h2]
          exact revBuildLoop_fault_of_mem fat cc rest rev count hrest
        · rw [if_neg h2, listSet]
          by_cases h3 : raw &&& 0x0fffffff < rev.length
          · rw [if_pos h3]
            exact revBuildLoop_fault_of_mem fat cc rest (rev.set _ i) count hrest
          · rw [if_neg h3]

/-! ## Chain accounting under unique predecessors (claim C7)

Properties of the forward walk `walkT`, of the reversed FAT built by the
first scan, and of the backward walk, under the hypotheses that every
scanned entry is free, a valid forward link or an end-of-chain mark
(`Hdom` below) and that no two entries link to the same cluster
(`Hinj`). -/

theorem walkT_steps_lt (fat : List Nat) (cc : Nat) :
    ∀ (f i t k : Nat), walkT fat cc f i = some (t, k) → k < f
  | 0, i, t, k, h => by simp [walkT] at h
  | f + 1, i, t, k, h => by
    rw [walkT] at h
    by_cases h1 : cc ≤ mval fat i
    · simp only [if_pos h1, Option.some.injEq, Prod.mk.injEq] at h
      omega
    · rw [if_neg h1] at h
      by_cases h2 : mval fat i = 0
      · rw [if_pos h2] at h
        simp at h
      · rw [if_neg h2] at h
        rcases hw : walkT fat cc f (mval fat i) with _ | p
        · rw [hw] at h
          simp at h
        · rw [hw] at h
          simp only [Option.some.injEq, Prod.mk.injEq] at h
          have := walkT_steps_lt fat cc f (mval fat i) p.1 p.2 (by rw [hw])
          omega

theorem walkT_mono (fat : List Nat) (cc : Nat) :
    ∀ (f i : Nat) (r : Nat × Nat), walkT fat cc f i = some r →
      walkT fat cc (f + 1) i = some r
  | 0, i, r, h => by simp [walkT] at h
  | f + 1, i, r, h => by
    rw [walkT] at h
    rw [walkT]
    by_cases h1 : cc ≤ mval fat i
    · rw [if_pos h1] at h
      rw [if_pos h1]
      exact h
    · rw [if_neg h1] at h
      rw [if_neg h1]
      by_cases h2 : mval fat i = 0
      · rw [if_pos h2] at h
        simp at h
      · rw [if_neg h2] at h
        rw [if_neg h2]
        rcases hw : walkT fat cc f (mval fat i) with _ | p
        · rw [hw] at h
          simp at h
        · rw [hw] at h
          rw [walkT_mono fat cc f (mval fat i) p hw]
          exact h

theorem walkT_ge (fat : List Nat) (cc : Nat) (f g : Nat) (i : Nat) (r : Nat × Nat)
    (h : walkT fat cc f i = some r) (hfg : f ≤ g) : walkT fat cc g i = some r := by
  induction hfg with
  | refl => exact h
  | step _ ih => exact walkT_mono fat cc _ i r ih

theorem walkT_trunc (fat : List Nat) (cc : Nat) :
    ∀ (f i t k : Nat), walkT fat cc f i = some (t, k) →
      walkT fat cc (k + 1) i = some (t, k)
  | 0, i, t, k, h => by simp [walkT] at h
  | f + 1, i, t, k, h => by
    rw [walkT] at h
    by_cases h1 : cc ≤ mval fat i
    · simp only [if_pos h1, Option.some.injEq, Prod.mk.injEq] at h
      obtain ⟨ht, hk⟩ := h
      rw [← hk, walkT, if_pos h1, ht]
    · rw [if_neg h1] at h
      by_cases h2 : mval fat i = 0
      · rw [if_pos h2] at h
        simp at h
      · rw [if_neg h2] at h
        rcases hw : walkT fat cc f (mval fat i) with _ | p
        · rw [hw] at h
          simp at h
        · rw [hw] at h
          simp only [Option.some.injEq, Prod.mk.injEq] at h
          obtain ⟨h3, h4⟩ := h
          have ht := walkT_trunc fat cc f (mval fat i) p.1 p.2 (by rw [hw])
          rw [show k = p.2 + 1 by omega, walkT, if_neg h1, if_neg h2, ht, h3]

theorem walkT_zero_inv (fat : List Nat) (cc : Nat) (f i t : Nat)
    (h : walkT fat cc f i = some (t, 0)) : i = t ∧ cc ≤ mval fat i := by
  cases f with
  | zero => simp [walkT] at h
  | succ f =>
    rw [walkT] at h
    by_cases h1 : cc ≤ mval fat i
    · simp only [if_pos h1, Option.some.injEq, Prod.mk.injEq] at h
      exact ⟨h.1, h1⟩
    · rw [if_neg h1] at h
      by_cases h2 : mval fat i = 0
      · rw [if_pos h2] at h
        simp at h
      · rw [if_neg h2] at h
        rcases hw : walkT fat cc f (mval fat i) with _ | p
        · rw [hw] at h
          simp at h
        · rw [hw] at h
          simp at h

theorem walkT_succ_inv (fat : List Nat) (cc : Nat) (f i t k : Nat)
    (h : walkT fat cc f i = some (t, k + 1)) :
    ¬ cc ≤ mval fat i ∧ mval fat i ≠ 0 ∧
      walkT fat cc (k + 1) (mval fat i) = some (t, k) := by
  cases f with
  | zero => simp [walkT] at h
  | succ f =>
    rw [walkT] at h
    by_cases h1 : cc ≤ mval fat i
    · simp only [if_pos h1, Option.some.injEq, Prod.mk.injEq] at h
      omega
    · rw [if_neg h1] at h
      by_cases h2 : mval fat i = 0
      · rw [if_pos h2] at h
        simp at h
      · rw [if_neg h2] at h
        rcases hw : walkT fat cc f (mval fat i) with _ | p
        · rw [hw] at h
          simp at h
        · rw [hw] at h
          simp only [Option.some.injEq, Prod.mk.injEq] at h
          refine ⟨h1, h2, ?_⟩
          have ht := walkT_trunc fat cc f (mval fat i) p.1 p.2 (by rw [hw])
          rw [show k = p.2 by omega, ← h.1]
          exact ht

theorem walkT_step (fat : List Nat) (cc : Nat) (f i t k : Nat)
    (h1 : ¬ cc ≤ mval fat i) (h2 : mval fat i ≠ 0)
    (h : walkT fat cc f (mval fat i) = some (t, k)) :
    walkT fat cc (f + 1) i = some (t, k + 1) := by
  rw [walkT, if_neg h1, if_neg h2, h]

theorem walkT_tail (fat : List Nat) (cc : Nat) (t : Nat) (hcc : 0 < cc)
    (ht : cc ≤ mval fat t) : walkT fat cc cc t = some (t, 0) := by
  obtain ⟨c, rfl⟩ : ∃ c, cc = c + 1 := ⟨cc - 1, by omega⟩
  rw [walkT, if_pos ht]

theorem walkT_endpoint (fat : List Nat) (cc : Nat)
    (Hdom : ∀ i, 2 ≤ i → i < cc → mval fat i = 0 ∨
      (2 ≤ mval fat i ∧ mval fat i < cc) ∨ cc ≤ mval fat i) :
    ∀ (f i t k : Nat), 2 ≤ i → i < cc → walkT fat cc f i = some (t, k) →
      2 ≤ t ∧ t < cc ∧ cc ≤ mval fat t
  | 0, i, t, k, _, _, h => by simp [walkT] at h
  | f + 1, i, t, k, h2, hc, h => by
    rw [walkT] at h
    by_cases h1 : cc ≤ mval fat i
    · simp only [if_pos h1, Option.some.injEq, Prod.mk.injEq] at h
      obtain ⟨ht, _⟩ := h
      rw [← ht]
      exact ⟨h2, hc, h1⟩
    · rw [if_neg h1] at h
      by_cases hz : mval fat i = 0
      · rw [if_pos hz] at h
        simp at h
      · rw [if_neg hz] at h
        rcases hw : walkT fat cc f (mval fat i) with _ | p
        · rw [hw] at h
          simp at h
        · rw [hw] at h
          simp only [Option.some.injEq, Prod.mk.injEq] at h
          have hm : 2 ≤ mval fat i ∧ mval fat i < cc := by
            rcases Hdom i h2 hc with hd | hd | hd
            · exact absurd hd hz
            · exact hd
            · exact absurd hd h1
          have := walkT_endpoint fat cc Hdom f (mval fat i) p.1 p.2 hm.1 hm.2 (by rw [hw])
          rw [← h.1]
          exact this

theorem walkT_steps_inj (fat : List Nat) (cc : Nat)
    (Hdom : ∀ i, 2 ≤ i → i < cc → mval fat i = 0 ∨
      (2 ≤ mval fat i ∧ mval fat i < cc) ∨ cc ≤ mval fat i)
    (Hinj : ∀ i j, 2 ≤ i → i < cc → 2 ≤ j → j < cc →
      mval fat i ≠ 0 → mval fat i < cc → mval fat j ≠ 0 → mval fat j < cc →
      mval fat i = mval fat j → i = j) :
    ∀ (k f g i j t : Nat), 2 ≤ i → i < cc → 2 ≤ j → j < cc →
      walkT fat cc f i = some (t, k) → walkT fat cc g j = some (t, k) → i = j
  | 0, f, g, i, j, t, _, _, _, _, hi, hj => by
    obtain ⟨hit, _⟩ := walkT_zero_inv fat cc f i t hi
    obtain ⟨hjt, _⟩ := walkT_zero_inv fat cc g j t hj
    rw [hit, hjt]
  | k + 1, f, g, i, j, t, h2i, hic, h2j, hjc, hi, hj => by
    obtain ⟨hb1, hnz1, hw1⟩ := walkT_succ_inv fat cc f i t k hi
    obtain ⟨hb2, hnz2, hw2⟩ := walkT_succ_inv fat cc g j t k hj
    have hmi : 2 ≤ mval fat i ∧ mval fat i < cc := by
      rcases Hdom i h2i hic with hd | hd | hd
      · exact absurd hd hnz1
      · exact hd
      · exact absurd hd hb1
    have hmj : 2 ≤ mval fat j ∧ mval fat j < cc := by
      rcases Hdom j h2j hjc with hd | hd | hd
      · exact absurd hd hnz2
      · exact hd
      · exact absurd hd hb2
    have heq : mval fat i = mval fat j :=
      walkT_steps_inj fat cc Hdom Hinj k (k + 1) (k + 1) (mval fat i) (mval fat j) t
        hmi.1 hmi.2 hmj.1 hmj.2 hw1 hw2
    exact Hinj i j h2i hic h2j hjc hnz1 (by omega) hnz2 (by omega) heq

/-- The cluster reached after `d` forward steps from `i`. -/
def chainElem (fat : List Nat) : Nat → Nat → Nat
  | 0, i => i
  | d + 1, i => chainElem fat d (mval fat i)

theorem chainElem_walk (fat : List Nat) (cc : Nat)
    (Hdom : ∀ i, 2 ≤ i → i < cc → mval fat i = 0 ∨
      (2 ≤ mval fat i ∧ mval fat i < cc) ∨ cc ≤ mval fat i) :
    ∀ (d f i t k : Nat), 2 ≤ i → i < cc → walkT fat cc f i = some (t, k) → d ≤ k →
      2 ≤ chainElem fat d i ∧ chainElem fat d i < cc ∧
        walkT fat cc (k - d + 1) (chainElem fat d i) = some (t, k - d)
  | 0, f, i, t, k, h2, hc, hw, _ =>
    ⟨h2, hc, by simpa using walkT_trunc fat cc f i t k hw⟩
  | d + 1, f, i, t, k, h2, hc, hw, hd => by
    obtain ⟨k', rfl⟩ : ∃ k', k = k' + 1 := ⟨k - 1, by omega⟩
    obtain ⟨hb, hnz, hwm⟩ := walkT_succ_inv fat cc f i t k' hw
    have hm : 2 ≤ mval fat i ∧ mval fat i < cc := by
      rcases Hdom i h2 hc with hdm | hdm | hdm
      · exact absurd hdm hnz
      · exact hdm
      · exact absurd hdm hb
    have := chainElem_walk fat cc Hdom d (k' + 1) (mval fat i) t k' hm.1 hm.2 hwm (by omega)
    simpa [chainElem, show k' + 1 - (d + 1) = k' - d by omega] using this

theorem walkT_steps_bound (fat : List Nat) (cc : Nat)
    (Hdom : ∀ i, 2 ≤ i → i < cc → mval fat i = 0 ∨
      (2 ≤ mval fat i ∧ mval fat i < cc) ∨ cc ≤ mval fat i)
    (f i t k : Nat) (h2 : 2 ≤ i) (hc : i < cc)
    (hw : walkT fat cc f i = some (t, k)) : k + 1 ≤ cc - 2 := by
  have hcard : (Finset.range (k + 1)).card ≤ (Finset.Ico 2 cc).card := by
    apply Finset.card_le_card_of_injOn (fun d => chainElem fat d i)
    · intro d hd
      have hd' : d ≤ k := by
        have := Finset.mem_range.mp hd
        omega
      obtain ⟨e2, ec, _⟩ := chainElem_walk fat cc Hdom d f i t k h2 hc hw hd'
      exact Finset.mem_Ico.mpr ⟨e2, ec⟩
    · intro d hd d' hd' heq
      have hdk : d ≤ k := by
        have := Finset.mem_range.mp hd
        omega
      have hdk' : d' ≤ k := by
        have := Finset.mem_range.mp hd'
        omega
      obtain ⟨_, _, hwd⟩ := chainElem_walk fat cc Hdom d f i t k h2 hc hw hdk
      obtain ⟨_, _, hwd'⟩ := chainElem_walk fat cc Hdom d' f i t k h2 hc hw hdk'
      have heq' : chainElem fat d i = chainElem fat d' i := heq
      rw [heq'] at hwd
      have h1 := walkT_ge fat cc _ (k + 1) _ _ hwd (by omega)
      have h2' := walkT_ge fat cc _ (k + 1) _ _ hwd' (by omega)
      rw [h1] at h2'
      simp only [Option.some.injEq, Prod.mk.injEq] at h2'
      omega
  simpa [Nat.card_Ico] using hcard

theorem fiber_card_ge (fat : List Nat) (cc : Nat)
    (Hdom : ∀ i, 2 ≤ i → i < cc → mval fat i = 0 ∨
      (2 ≤ mval fat i ∧ mval fat i < cc) ∨ cc ≤ mval fat i)
    (f i t k : Nat) (h2 : 2 ≤ i) (hc : i < cc)
    (hw : walkT fat cc f i = some (t, k)) : k + 1 ≤ (fiber fat cc t).card := by
  have hbound := walkT_steps_bound fat cc Hdom f i t k h2 hc hw
  have hcard : (Finset.range (k + 1)).card ≤ (fiber fat cc t).card := by
    apply Finset.card_le_card_of_injOn (fun d => chainElem fat d i)
    · intro d hd
      have hd' : d ≤ k := by
        have := Finset.mem_range.mp hd
        omega
      obtain ⟨e2, ec, ew⟩ := chainElem_walk fat cc Hdom d f i t k h2 hc hw hd'
      have hcc' : walkT fat cc cc (chainElem fat d i) = some (t, k - d) :=
        walkT_ge fat cc _ cc _ _ ew (by omega)
      unfold fiber
      rw [Finset.mem_filter]
      refine ⟨Finset.mem_Ico.mpr ⟨e2, ec⟩, ?_⟩
      rw [hcc']
      rfl
    · intro d hd d' hd' heq
      have hdk : d ≤ k := by
        have := Finset.mem_range.mp hd
        omega
      have hdk' : d' ≤ k := by
        have := Finset.mem_range.mp hd'
        omega
      obtain ⟨_, _, hwd⟩ := chainElem_walk fat cc Hdom d f i t k h2 hc hw hdk
      obtain ⟨_, _, hwd'⟩ := chainElem_walk fat cc Hdom d' f i t k h2 hc hw hdk'
      have heq' : chainElem fat d i = chainElem fat d' i := heq
      rw [heq'] at hwd
      have h1 := walkT_ge fat cc _ (k + 1) _ _ hwd (by omega)
      have h2' := walkT_ge fat cc _ (k + 1) _ _ hwd' (by omega)
      rw [h1] at h2'
      simp only [Option.some.injEq, Prod.mk.injEq] at h2'
      omega
  have := Finset.card_range (k + 1)
  omega

theorem fiber_card_le (fat : List Nat) (cc : Nat)
    (Hdom : ∀ i, 2 ≤ i → i < cc → mval fat i = 0 ∨
      (2 ≤ mval fat i ∧ mval fat i < cc) ∨ cc ≤ mval fat i)
    (Hinj : ∀ i j, 2 ≤ i → i < cc → 2 ≤ j → j < cc →
      mval fat i ≠ 0 → mval fat i < cc → mval fat j ≠ 0 → mval fat j < cc →
      mval fat i = mval fat j → i = j)
    (x t k : Nat) (h2 : 2 ≤ x) (hc : x < cc)
    (hw : walkT fat cc cc x = some (t, k))
    (hnopred : ∀ q, 2 ≤ q → q < cc → mval fat q ≠ x) :
    (fiber fat cc t).card ≤ k + 1 := by
  have hcard : (fiber fat cc t).card ≤ (Finset.range (k + 1)).card := by
    apply Finset.card_le_card_of_injOn
      (fun i => ((walkT fat cc cc i).map Prod.snd).getD 0)
    · intro i hi
      unfold fiber at hi
      rw [Finset.mem_filter, Finset.mem_Ico] at hi
      obtain ⟨⟨hi2, hic⟩, hif⟩ := hi
      obtain ⟨ki, hki⟩ : ∃ ki, walkT fat cc cc i = some (t, ki) := by
        rcases hwi : walkT fat cc cc i with _ | ⟨a, b⟩
        · rw [hwi] at hif
          simp at hif
        · rw [hwi] at hif
          simp at hif
          exact ⟨b, by rw [hif]⟩
      show ((walkT fat cc cc i).map Prod.snd).getD 0 ∈ Finset.range (k + 1)
      rw [hki]
      show ki ∈ Finset.range (k + 1)
      rw [Finset.mem_range]
      by_contra hgt
      have hkik : k + 1 ≤ ki := by omega
      obtain ⟨y2, yc, hy⟩ := chainElem_walk fat cc Hdom (ki - (k + 1)) cc i t ki hi2 hic
        hki (by omega)
      rw [show ki - (ki - (k + 1)) = k + 1 by omega] at hy
      obtain ⟨hyb, hynz, hym⟩ := walkT_succ_inv fat cc _ _ t k hy
      have hmy : 2 ≤ mval fat (chainElem fat (ki - (k + 1)) i) ∧
          mval fat (chainElem fat (ki - (k + 1)) i) < cc := by
        rcases Hdom _ y2 yc with hdm | hdm | hdm
        · exact absurd hdm hynz
        · exact hdm
        · exact absurd hdm hyb
      have : mval fat (chainElem fat (ki - (k + 1)) i) = x :=
        walkT_steps_inj fat cc Hdom Hinj k (k + 1) cc _ x t hmy.1 hmy.2 h2 hc hym hw
      exact hnopred _ y2 yc this
    · intro i hi j hj heq
      have hi' : i ∈ fiber fat cc t := hi
      have hj' : j ∈ fiber fat cc t := hj
      unfold fiber at hi' hj'
      rw [Finset.mem_filter, Finset.mem_Ico] at hi' hj'
      obtain ⟨⟨hi2, hic⟩, hif⟩ := hi'
      obtain ⟨⟨hj2, hjc⟩, hjf⟩ := hj'
      obtain ⟨ki, hki⟩ : ∃ ki, walkT fat cc cc i = some (t, ki) := by
        rcases hwi : walkT fat cc cc i with _ | ⟨a, b⟩
        · rw [hwi] at hif
          simp at hif
        · rw [hwi] at hif
          simp at hif
          exact ⟨b, by rw [hif]⟩
      obtain ⟨kj, hkj⟩ : ∃ kj, walkT fat cc cc j = some (t, kj) := by
        rcases hwj : walkT fat cc cc j with _ | ⟨a, b⟩
        · rw [hwj] at hjf
          simp at hjf
        · rw [hwj] at hjf
          simp at hjf
          exact ⟨b, by rw [hjf]⟩
      have heq' : ((walkT fat cc cc i).map Prod.snd).getD 0 =
          ((walkT fat cc cc j).map Prod.snd).getD 0 := heq
      rw [hki, hkj] at heq'
      simp at heq'
      exact walkT_steps_inj fat cc Hdom Hinj ki cc cc i j t hi2 hic hj2 hjc hki
        (by rw [hkj, heq'])
  have := Finset.card_range (k + 1)
  omega

theorem walkT_none_of_zero (fat : List Nat) (cc : Nat) (i : Nat) (hcc : 0 < cc)
    (hz : mval fat i = 0) : ∀ f, walkT fat cc (f + 1) i = none := by
  intro f
  rw [walkT, if_neg (by omega), if_pos hz]

/-- Under unique predecessors, cell `x` of the built reversed FAT holds
the one entry that links to `x`. -/
theorem rev_getD_writer (fat : List Nat) (cc : Nat)
    (Hinj : ∀ i j, 2 ≤ i → i < cc → 2 ≤ j → j < cc →
      mval fat i ≠ 0 → mval fat i < cc → mval fat j ≠ 0 → mval fat j < cc →
      mval fat i = mval fat j → i = j)
    (p x : Nat) (hp2 : 2 ≤ p) (hpc : p < cc) (hpx : mval fat p = x)
    (hx0 : x ≠ 0) (hxc : x < cc) (hxlen : x < fat.length) :
    (revApply fat cc (List.range' 2 (cc - 2))
      (List.replicate fat.length 0xffffffff)).getD x 0 = p := by
  rcases hfq : (List.range' 2 (cc - 2)).reverse.find?
      (fun i => decide (writesTo fat cc i x)) with _ | q
  · exfalso
    rw [List.find?_eq_none] at hfq
    have hmem : p ∈ (List.range' 2 (cc - 2)).reverse := by
      rw [List.mem_reverse, List.mem_range'_1]
      omega
    have := hfq p hmem
    simp only [decide_eq_true_eq] at this
    exact this ⟨hpx, hxc, hx0⟩
  · have hq := List.find?_some hfq
    simp only [decide_eq_true_eq] at hq
    obtain ⟨hqv, hqcc, hq0⟩ := hq
    have hqmem := List.mem_of_find?_eq_some hfq
    rw [List.mem_reverse, List.mem_range'_1] at hqmem
    have hqp : q = p := Hinj q p hqmem.1 (by omega) hp2 hpc (by rw [hqv]; omega)
      (by rw [hqv]; omega) (by rw [hpx]; omega) (by rw [hpx]; omega) (by rw [hqv, hpx])
    rw [revApply_getD, hfq]
    show (if x < (List.replicate fat.length 0xffffffff).length then q
      else (List.replicate fat.length 0xffffffff).getD x 0) = p
    rw [if_pos (by simpa using hxlen)]
    exact hqp

/-- A cell of the reversed FAT with no writer keeps the sentinel. -/
theorem rev_getD_sentinel (fat : List Nat) (cc : Nat) (x : Nat)
    (hno : ∀ q, 2 ≤ q → q < cc → mval fat q ≠ x) (hxlen : x < fat.length) :
    (revApply fat cc (List.range' 2 (cc - 2))
      (List.replicate fat.length 0xffffffff)).getD x 0 = 0xffffffff := by
  have hfq : (List.range' 2 (cc - 2)).reverse.find?
      (fun i => decide (writesTo fat cc i x)) = none := by
    rw [List.find?_eq_none]
    intro q hq
    rw [List.mem_reverse, List.mem_range'_1] at hq
    simp only [decide_eq_true_eq]
    intro hw
    exact hno q hq.1 (by omega) hw.1
  rw [revApply_getD, hfq]
  simp [List.getD_eq_getElem?_getD, List.getElem?_replicate, hxlen]

/-- The backward walk of `followChainBackwards`, entered at a cluster `x`
whose forward walk reaches the tail `t` in `k` steps with counter `k+1`,
stops at the chain head and returns exactly the fiber size of `t`. -/
theorem backLoop_card (fat : List Nat) (cc : Nat) (rev : List Nat)
    (hlen : cc ≤ rev.length)
    (Hdom : ∀ i, 2 ≤ i → i < cc → mval fat i = 0 ∨
      (2 ≤ mval fat i ∧ mval fat i < cc) ∨ cc ≤ mval fat i)
    (Hinj : ∀ i j, 2 ≤ i → i < cc → 2 ≤ j → j < cc →
      mval fat i ≠ 0 → mval fat i < cc → mval fat j ≠ 0 → mval fat j < cc →
      mval fat i = mval fat j → i = j)
    (hwriter : ∀ p x, 2 ≤ p → p < cc → mval fat p = x → x ≠ 0 → x < cc →
      rev.getD x 0 = p)
    (hsent : ∀ x, 2 ≤ x → x < cc → (∀ q, 2 ≤ q → q < cc → mval fat q ≠ x) →
      ¬ rev.getD x 0 < cc) :
    ∀ (fuel x t k : Nat), 2 ≤ x → x < cc → walkT fat cc cc x = some (t, k) →
      (fiber fat cc t).card ≤ k + 1 + fuel →
      ∃ s, backLoop rev cc fuel x (k + 1) = .ok (s, (fiber fat cc t).card) ∧
        2 ≤ s ∧ s < cc := by
  intro fuel
  induction fuel with
  | zero =>
    intro x t k h2 hc hw hfuel
    by_cases hp : ∃ q, 2 ≤ q ∧ q < cc ∧ mval fat q = x
    · exfalso
      obtain ⟨q, hq2, hqc, hqx⟩ := hp
      have hwq : walkT fat cc (cc + 1) q = some (t, k + 1) := by
        apply walkT_step fat cc cc q t k (by rw [hqx]; omega) (by rw [hqx]; omega)
        rw [hqx]
        exact hw
      have := fiber_card_ge fat cc Hdom (cc + 1) q t (k + 1) hq2 hqc hwq
      omega
    · push_neg at hp
      have hnp : ∀ q, 2 ≤ q → q < cc → mval fat q ≠ x := fun q a b => hp q a b
      rw [backLoop, fatGet_eq_ok (by omega)]
      simp only [ExecRes.bind]
      rw [if_neg (hsent x h2 hc hnp)]
      have hge := fiber_card_ge fat cc Hdom cc x t k h2 hc hw
      have hle := fiber_card_le fat cc Hdom Hinj x t k h2 hc hw hnp
      refine ⟨x, ?_, h2, hc⟩
      rw [show (fiber fat cc t).card = k + 1 by omega]
  | succ fuel ih =>
    intro x t k h2 hc hw hfuel
    by_cases hp : ∃ q, 2 ≤ q ∧ q < cc ∧ mval fat q = x
    · obtain ⟨q, hq2, hqc, hqx⟩ := hp
      have hrev : rev.getD x 0 = q := hwriter q x hq2 hqc hqx (by omega) hc
      rw [backLoop, fatGet_eq_ok (by omega)]
      simp only [ExecRes.bind]
      rw [hrev, if_pos hqc]
      have hwq1 : walkT fat cc (cc + 1) q = some (t, k + 1) := by
        apply walkT_step fat cc cc q t k (by rw [hqx]; omega) (by rw [hqx]; omega)
        rw [hqx]
        exact hw
      have hb := walkT_steps_bound fat cc Hdom (cc + 1) q t (k + 1) hq2 hqc hwq1
      have hwq : walkT fat cc cc q = some (t, k + 1) :=
        walkT_ge fat cc (k + 1 + 1) cc q (t, k + 1)
          (walkT_trunc fat cc (cc + 1) q t (k + 1) hwq1) (by omega)
      obtain ⟨s, hbl, hs2, hsc⟩ := ih q t (k + 1) hq2 hqc hwq (by omega)
      exact ⟨s, hbl, hs2, hsc⟩
    · push_neg at hp
      have hnp : ∀ q, 2 ≤ q → q < cc → mval fat q ≠ x := fun q a b => hp q a b
      rw [backLoop, fatGet_eq_ok (by omega)]
      simp only [ExecRes.bind]
      rw [if_neg (hsent x h2 hc hnp)]
      have hge := fiber_card_ge fat cc Hdom cc x t k h2 hc hw
      have hle := fiber_card_le fat cc Hdom Hinj x t k h2 hc hw hnp
      refine ⟨x, ?_, h2, hc⟩
      rw [show (fiber fat cc t).card = k + 1 by omega]

/-- The contiguity scan terminates with some verdict whenever it starts
inside the cluster range: its current cluster strictly increases. -/
theorem contigLoop_ok (fat : List Nat) (cc : Nat) (hccf : cc ≤ fat.length) :
    ∀ (fuel cur : Nat), cur < cc → cc ≤ cur + fuel →
      ∃ b, contigLoop fat cc fuel cur = .ok b
  | 0, cur, h1, h2 => absurd h2 (by omega)
  | fuel + 1, cur, h1, h2 => by
    rw [contigLoop, fatGet_eq_ok (by omega)]
    simp only [ExecRes.bind]
    by_cases hv : fat.getD cur 0 < cc
    · rw [if_pos hv]
      by_cases hne : fat.getD cur 0 ≠ cur + 1
      · rw [if_pos hne]
        exact ⟨false, rfl⟩
      · rw [if_neg hne]
        push_neg at hne
        obtain ⟨b, hb⟩ := contigLoop_ok fat cc hccf fuel (fat.getD cur 0)
          (by omega) (by omega)
        exact ⟨b, hb⟩
    · rw [if_neg hv]
      exact ⟨true, rfl⟩

/-- The chain `followChainBackwards` returns for tail `t` (whatever its
head and contiguity verdict), as a total function of `t`. -/
def chainOf (fat : List Nat) (cc : Nat) (rev : List Nat) (spc fuel : Nat)
    (t : Nat) : FATChain :=
  match followChainBackwards fat cc rev spc fuel t with
  | .ok ch => ch
  | _ => { StartCluster := 0, Contiguous := false, Size := 0 }

/-- For every tail, `followChainBackwards` succeeds and its chain's
`Size` counts exactly the tail's fiber, in clusters. -/
theorem follow_ok_card (fat : List Nat) (cc : Nat) (rev : List Nat) (spc fuel : Nat)
    (hccf : cc ≤ fat.length) (hccr : cc ≤ rev.length)
    (Hdom : ∀ i, 2 ≤ i → i < cc → mval fat i = 0 ∨
      (2 ≤ mval fat i ∧ mval fat i < cc) ∨ cc ≤ mval fat i)
    (Hinj : ∀ i j, 2 ≤ i → i < cc → 2 ≤ j → j < cc →
      mval fat i ≠ 0 → mval fat i < cc → mval fat j ≠ 0 → mval fat j < cc →
      mval fat i = mval fat j → i = j)
    (hwriter : ∀ p x, 2 ≤ p → p < cc → mval fat p = x → x ≠ 0 → x < cc →
      rev.getD x 0 = p)
    (hsent : ∀ x, 2 ≤ x → x < cc → (∀ q, 2 ≤ q → q < cc → mval fat q ≠ x) →
      ¬ rev.getD x 0 < cc)
    (hfuel : cc ≤ fuel)
    (t : Nat) (ht2 : 2 ≤ t) (htc : t < cc) (htail : cc ≤ mval fat t) :
    ∃ s b, followChainBackwards fat cc rev spc fuel t =
      .ok { StartCluster := s, Contiguous := b,
            Size := ((fiber fat cc t).card * SectorSize * spc) % 2 ^ 64 } := by
  have hw0 : walkT fat cc cc t = some (t, 0) := walkT_tail fat cc t (by omega) htail
  have hcard_le : (fiber fat cc t).card ≤ cc - 2 := by
    have h1 : (fiber fat cc t).card ≤ (Finset.Ico 2 cc).card := Finset.card_filter_le _ _
    simpa [Nat.card_Ico] using h1
  obtain ⟨s, hbl, hs2, hsc⟩ := backLoop_card fat cc rev hccr Hdom Hinj hwriter hsent
    fuel t t 0 ht2 htc hw0 (by omega)
  obtain ⟨b, hcl⟩ := contigLoop_ok fat cc hccf fuel s hsc (by omega)
  have hent : ¬ fat.getD t 0 < cc := by
    have hml : mval fat t ≤ fat.getD t 0 := Nat.and_le_left
    omega
  refine ⟨s, b, ?_⟩
  rw [followChainBackwards, fatGet_eq_ok (by omega)]
  simp only [ExecRes.bind]
  rw [if_neg hent, hbl]
  simp only [ExecRes.bind]
  rw [hcl]

/-- The tail index reached by the forward walk (0 when the walk fails). -/
def walkTail (fat : List Nat) (cc : Nat) (i : Nat) : Nat :=
  ((walkT fat cc cc i).map Prod.fst).getD 0

/-- The reachable non-zero entries are partitioned by the tail their walk
reaches: the fibers of the tails count them exactly. -/
theorem reachable_card_fiberwise (fat : List Nat) (cc : Nat)
    (Hdom : ∀ i, 2 ≤ i → i < cc → mval fat i = 0 ∨
      (2 ≤ mval fat i ∧ mval fat i < cc) ∨ cc ≤ mval fat i) :
    (reachableNonzero fat cc).card =
      ∑ t ∈ (Finset.Ico 2 cc).filter (fun t => cc ≤ mval fat t),
        (fiber fat cc t).card := by
  have hH : ∀ i ∈ reachableNonzero fat cc,
      walkTail fat cc i ∈ (Finset.Ico 2 cc).filter (fun t => cc ≤ mval fat t) := by
    intro i hi
    unfold reachableNonzero at hi
    rw [Finset.mem_filter, Finset.mem_Ico] at hi
    obtain ⟨⟨hi2, hic⟩, _, hsome⟩ := hi
    rcases hwi : walkT fat cc cc i with _ | ⟨a, b⟩
    · rw [hwi] at hsome
      simp at hsome
    · have hep := walkT_endpoint fat cc Hdom cc i a b hi2 hic hwi
      rw [Finset.mem_filter, Finset.mem_Ico]
      unfold walkTail
      rw [hwi]
      exact ⟨⟨hep.1, hep.2.1⟩, hep.2.2⟩
  rw [Finset.card_eq_sum_card_fiberwise hH]
  apply Finset.sum_congr rfl
  intro t _
  congr 1
  apply Finset.ext
  intro i
  constructor
  · intro hmem
    rw [Finset.mem_filter] at hmem
    obtain ⟨hrn, hwt⟩ := hmem
    unfold reachableNonzero at hrn
    rw [Finset.mem_filter] at hrn
    obtain ⟨hico, _, hsome⟩ := hrn
    unfold fiber
    rw [Finset.mem_filter]
    refine ⟨hico, ?_⟩
    rcases hwi : walkT fat cc cc i with _ | ⟨a, b⟩
    · rw [hwi] at hsome
      simp at hsome
    · unfold walkTail at hwt
      rw [hwi] at hwt
      simp at hwt
      simp [hwt]
  · intro hmem
    unfold fiber at hmem
    rw [Finset.mem_filter] at hmem
    obtain ⟨hico, hmap⟩ := hmem
    have hic := Finset.mem_Ico.mp hico
    obtain ⟨a, b, hwi, hat⟩ : ∃ a b, walkT fat cc cc i = some (a, b) ∧ a = t := by
      rcases hwi : walkT fat cc cc i with _ | ⟨a, b⟩
      · rw [hwi] at hmap
        simp at hmap
      · rw [hwi] at hmap
        simp at hmap
        exact ⟨a, b, rfl, hmap⟩
    rw [Finset.mem_filter]
    constructor
    · unfold reachableNonzero
      rw [Finset.mem_filter]
      refine ⟨hico, ?_, by rw [hwi]; rfl⟩
      intro hz
      have hnone := walkT_none_of_zero fat cc i (by omega) hz (cc - 1)
      rw [show cc - 1 + 1 = cc by omega] at hnone
      rw [hnone] at hwi
      exact absurd hwi (by simp)
    · unfold walkTail
      rw [hwi]
      simpa using hat

/-- Summing a mapped filter of `range'` as a `Finset.Ico` sum. -/
theorem range'_filter_map_sum (p : Nat → Bool) (h : Nat → Nat) (s : Nat) :
    ∀ n : Nat, (((List.range' s n).filter p).map h).sum =
      ∑ t ∈ Finset.Ico s (s + n), if p t then h t else 0
  | 0 => by simp
  | n + 1 => by
    rw [List.range'_concat, List.filter_append, List.map_append, List.sum_append,
      range'_filter_map_sum p h s n,
      show s + (n + 1) = (s + n) + 1 by omega,
      Finset.sum_Ico_succ_top (by omega)]
    simp only [one_mul]
    congr 1
    by_cases hp : p (s + n)
    · simp [hp]
    · simp [hp]

/-! ## Claim C7 -/

/-- Claim C7 (amended): for a synthetic allocation table in which every
scanned entry is 0, a valid forward link or an out-of-range tail, and in
which additionally NO TWO ENTRIES LINK TO THE SAME CLUSTER, `GetAllChains`
succeeds and the returned chains' byte sizes sum to the number of
non-zero reachable entries times the cluster size in bytes — the sizes
sum, in clusters, to the number of non-zero reachable entries. (Without
the uniqueness proviso the claim is false: the reversed-FAT build keeps
only the last writer of each cell, so a shared-successor branch is
dropped from every chain — see the counterexample.) -/
theorem C7_chain_sizes_account (fs : FAT32Filesystem) (cc : Nat)
    (hspc : fs.Header.BPB.SectorsPerCluster ≠ 0)
    (hcc : fs.Header.BPB.LargeSectorCount / fs.Header.BPB.SectorsPerCluster = cc)
    (hlen : cc ≤ fs.FAT.length)
    (hcc32 : cc ≤ 0xffffffff)
    (Hdom : ∀ i, 2 ≤ i → i < cc → mval fs.FAT i = 0 ∨
      (2 ≤ mval fs.FAT i ∧ mval fs.FAT i < cc) ∨ cc ≤ mval fs.FAT i)
    (Hinj : ∀ i j, 2 ≤ i → i < cc → 2 ≤ j → j < cc →
      mval fs.FAT i ≠ 0 → mval fs.FAT i < cc →
      mval fs.FAT j ≠ 0 → mval fs.FAT j < cc →
      mval fs.FAT i = mval fs.FAT j → i = j)
    (Hsize : cc * SectorSize * fs.Header.BPB.SectorsPerCluster < 2 ^ 64) :
    ∃ chains : List FATChain, GetAllChains fs = .ok chains ∧
      (chains.map FATChain.Size).sum =
        (reachableNonzero fs.FAT cc).card *
          (SectorSize * fs.Header.BPB.SectorsPerCluster) := by
  set fat := fs.FAT with hfat
  set spc := fs.Header.BPB.SectorsPerCluster with hspcdef
  set rev := revApply fat cc (List.range' 2 (cc - 2))
    (List.replicate fat.length 0xffffffff) with hrevdef
  have hrevlen : rev.length = fat.length := by
    rw [hrevdef, length_revApply, List.length_replicate]
  have hwriter : ∀ p x, 2 ≤ p → p < cc → mval fat p = x → x ≠ 0 → x < cc →
      rev.getD x 0 = p := by
    intro p x hp2 hpc hpx hx0 hxc
    rw [hrevdef]
    exact rev_getD_writer fat cc Hinj p x hp2 hpc hpx hx0 hxc (by omega)
  have hsent : ∀ x, 2 ≤ x → x < cc → (∀ q, 2 ≤ q → q < cc → mval fat q ≠ x) →
      ¬ rev.getD x 0 < cc := by
    intro x h2 hc hnp
    rw [hrevdef, rev_getD_sentinel fat cc x hnp (by omega)]
    omega
  have hmem : ∀ i ∈ List.range' 2 (cc - 2), i < fat.length := by
    intro i hi
    rw [List.mem_range'_1] at hi
    omega
  have hbnd : ∀ i ∈ List.range' 2 (cc - 2), ¬ cc ≤ mval fat i → mval fat i ≠ 0 →
      mval fat i < (List.replicate fat.length (0xffffffff : Nat)).length := by
    intro i hi h1 h2
    rw [List.length_replicate]
    rw [List.mem_range'_1] at hi
    rcases Hdom i hi.1 (by omega) with h | h | h <;> omega
  have hfollow : ∀ i ∈ List.range' 2 (cc - 2), cc ≤ mval fat i →
      followChainBackwards fat cc rev spc (fat.length + cc + 2) i =
        .ok (chainOf fat cc rev spc (fat.length + cc + 2) i) := by
    intro i hi htl
    rw [List.mem_range'_1] at hi
    obtain ⟨s, b, hsb⟩ := follow_ok_card fat cc rev spc (fat.length + cc + 2)
      hlen (by omega) Hdom Hinj hwriter hsent (by omega) i hi.1 (by omega) htl
    rw [hsb]
    unfold chainOf
    rw [hsb]
  have hrun : GetAllChains fs = .ok (((List.range' 2 (cc - 2)).filter
      (fun i => decide (cc ≤ mval fat i))).map
      (chainOf fat cc rev spc (fat.length + cc + 2))) := by
    rw [GetAllChains_eq, if_neg hspc, hcc]
    rw [revBuildLoop_ok fat cc (List.range' 2 (cc - 2))
      (List.replicate fat.length 0xffffffff) 0 hmem hbnd]
    simp only [ExecRes.bind]
    show emitLoop fat cc rev spc (fat.length + cc + 2) (List.range' 2 (cc - 2)) [] = _
    rw [emitLoop_ok fat cc rev spc (fat.length + cc + 2)
      (chainOf fat cc rev spc (fat.length + cc + 2)) (List.range' 2 (cc - 2)) []
      hmem hfollow]
    rw [List.nil_append]
  refine ⟨_, hrun, ?_⟩
  rw [List.map_map]
  have hsz : ∀ tl ∈ (List.range' 2 (cc - 2)).filter (fun i => decide (cc ≤ mval fat i)),
      (FATChain.Size ∘ chainOf fat cc rev spc (fat.length + cc + 2)) tl =
        (fun t => (fiber fat cc t).card * (SectorSize * spc)) tl := by
    intro tl htl
    rw [List.mem_filter] at htl
    obtain ⟨htm, htp⟩ := htl
    rw [List.mem_range'_1] at htm
    simp only [decide_eq_true_eq] at htp
    obtain ⟨s, b, hsb⟩ := follow_ok_card fat cc rev spc (fat.length + cc + 2)
      hlen (by omega) Hdom Hinj hwriter hsent (by omega) tl htm.1 (by omega) htp
    simp only [Function.comp]
    unfold chainOf
    rw [hsb]
    show ((fiber fat cc tl).card * SectorSize * spc) % 2 ^ 64 =
      (fiber fat cc tl).card * (SectorSize * spc)
    have hcle : (fiber fat cc tl).card ≤ cc - 2 := by
      have h1 : (fiber fat cc tl).card ≤ (Finset.Ico 2 cc).card :=
        Finset.card_filter_le _ _
      simpa [Nat.card_Ico] using h1
    have hb : (fiber fat cc tl).card * SectorSize * spc ≤ cc * SectorSize * spc :=
      Nat.mul_le_mul_right spc (Nat.mul_le_mul_right SectorSize (by omega))
    rw [Nat.mod_eq_of_lt (by omega), Nat.mul_assoc]
  rw [List.map_congr_left hsz]
  rw [range'_filter_map_sum (fun i => decide (cc ≤ mval fat i))
    (fun t => (fiber fat cc t).card * (SectorSize * spc)) 2 (cc - 2)]
  have hIco : Finset.Ico 2 (2 + (cc - 2)) = Finset.Ico 2 cc := by
    by_cases h2cc : 2 ≤ cc
    · congr 1
      omega
    · rw [Finset.Ico_eq_empty (by omega), Finset.Ico_eq_empty (by omega)]
  rw [hIco]
  rw [← Finset.sum_filter]
  simp only [decide_eq_true_eq]
  rw [← Finset.sum_mul]
  rw [reachable_card_fiberwise fat cc Hdom]

/-! ## Concrete inputs used by counterexamples and witnesses -/

/-- Filesystem whose FAT has a mid-chain entry with a high reserved bit
set: entry 2 is `0x10000004` (masked link to cluster 4), entry 4 is an
end-of-chain mark; 5 clusters of one sector each. -/
def fsC3 : FAT32Filesystem :=
  { Header := { BPB := { SectorsPerCluster := 1, LargeSectorCount := 5 } },
    FAT := [0, 0, 0x10000004, 0, 0x0fffffff] }

/-- Filesystem whose header demands 2 clusters while the FAT slice is
empty: the precondition `clusterCount ≤ length FAT` fails but the scan
loop `for i := 2; i < 2` never runs. -/
def fsC8 : FAT32Filesystem :=
  { Header := { BPB := { SectorsPerCluster := 1, LargeSectorCount := 2 } },
    FAT := [] }

/-- Filesystem whose header demands 6 clusters while the FAT slice has
only 3 entries: the scan reads past the end of the FAT. -/
def fsOOB : FAT32Filesystem :=
  { Header := { BPB := { SectorsPerCluster := 1, LargeSectorCount := 6 } },
    FAT := [0, 0, 0] }

/-- A 512-byte image whose header parses (bytes 11..12 encode 512 bytes
per sector), whose FAT is empty (sectors per FAT = 0) and so loads
trivially, and whose FSInfo block (sector 0) has all-zero signatures,
failing validation. -/
def imgC1 : Nat → Nat := fun n => if n = 11 then 0 else if n = 12 then 2 else 0

/-! ## Claim C1 -/

/-- Claim C1 (amended): an FSInfo block that fails signature validation
does NOT leave the volume usable — `NewFAT32Filesystem` aborts: whenever
the header parses but `parseFSInfo` returns an error, `NewFAT32Filesystem`
returns that error wrapped in "Error reading FSInfo block: " and no
filesystem is constructed. -/
theorem C1_fsinfo_failure_aborts_open (img : Nat → Nat) (imgLen : Nat)
    (hdr : FAT32Header) (e : String)
    (hhdr : ParseFAT32Header img imgLen = .ok hdr)
    (hinfo : parseFSInfo img imgLen hdr = .err e) :
    NewFAT32Filesystem img imgLen = .err ("Error reading FSInfo block: " ++ e) := by
  simp only [NewFAT32Filesystem, hhdr, hinfo]

/-- Claim C1, counterexample to the claim as stated: a concrete image
whose header parses and whose FAT loads, but whose FSInfo signatures are
invalid; `NewFAT32Filesystem` returns an error instead of a usable
filesystem. -/
theorem C1_counterexample :
    ParseFAT32Header imgC1 512 = .ok (decodeFAT32Header imgC1) ∧
    loadFAT imgC1 512 (decodeFAT32Header imgC1) = .ok [] ∧
    NewFAT32Filesystem imgC1 512 =
      .err "Error reading FSInfo block: Invalid FSInfo struct: Bad first signature" := by
  refine ⟨by decide, by decide, by decide⟩

/-- Claim C1, witness for the amended theorem at the concrete image. -/
theorem C1_witness :
    NewFAT32Filesystem imgC1 512 =
      .err ("Error reading FSInfo block: " ++ "Invalid FSInfo struct: Bad first signature") :=
  C1_fsinfo_failure_aborts_open imgC1 512 (decodeFAT32Header imgC1)
    "Invalid FSInfo struct: Bad first signature" (by decide) (by decide)

/-! ## Claim C3 -/

/-- Claim C3: the claim states that `Contiguous` is true iff every masked
forward link equals `cluster + 1`. The code's forward scan tests the RAW
entry against `clusterCount`, so a mid-chain entry with a reserved high
bit set (here `0x10000004` at cluster 2, masked link 4) terminates the
scan early and the chain start 2 is marked contiguous although its masked
forward link is 4, not 3 — contradicting the claim and the `Contiguous`
field's own documentation ("file is on entirely subsequent clusters"). -/
theorem C3_contiguity_mask_bug :
    GetAllChains fsC3 = .ok [{ StartCluster := 2, Contiguous := true, Size := 1024 }] ∧
    mval fsC3.FAT 2 = 4 ∧ 2 + 1 < 4 := by
  refine ⟨by decide, by decide, by decide⟩

/-! ## Claim C8 -/

/-- Claim C8 (amended): every FAT access of `GetAllChains` stays in
bounds when `SectorsPerCluster` is non-zero and
`clusterCount = LargeSectorCount / SectorsPerCluster` does not exceed the
FAT slice length (first conjunct: no panic); conversely, a header with
`SectorsPerCluster = 0` (undefined division), or with
`clusterCount` exceeding the FAT length AND a non-empty scan range
(`clusterCount > 2`), makes the scan panic. (The original claim said every
violating header panics; a violating header with `clusterCount ≤ 2` runs
no loop iteration and returns an empty chain list — see the
counterexample.) -/
theorem C8_fat_scan_bounds :
    (∀ fs : FAT32Filesystem, fs.Header.BPB.SectorsPerCluster ≠ 0 →
      fs.Header.BPB.LargeSectorCount / fs.Header.BPB.SectorsPerCluster ≤ fs.FAT.length →
      GetAllChains fs ≠ .fault) ∧
    (∀ fs : FAT32Filesystem,
      (fs.Header.BPB.SectorsPerCluster = 0 ∨
        (fs.FAT.length < fs.Header.BPB.LargeSectorCount / fs.Header.BPB.SectorsPerCluster ∧
         2 < fs.Header.BPB.LargeSectorCount / fs.Header.BPB.SectorsPerCluster)) →
      GetAllChains fs = .fault) := by
  constructor
  · intro fs hspc hlen
    rw [GetAllChains_eq, if_neg hspc]
    have hmem1 : ∀ i ∈ List.range' 2
        (fs.Header.BPB.LargeSectorCount / fs.Header.BPB.SectorsPerCluster - 2),
        i < fs.FAT.length := by
      intro i hi
      rcases List.mem_range'.mp hi with ⟨k, hk, rfl⟩
      omega
    have hw : ∀ i ∈ List.range' 2
        (fs.Header.BPB.LargeSectorCount / fs.Header.BPB.SectorsPerCluster - 2),
        ¬ (fs.Header.BPB.LargeSectorCount / fs.Header.BPB.SectorsPerCluster) ≤
          mval fs.FAT i → mval fs.FAT i ≠ 0 →
        mval fs.FAT i < (List.replicate fs.FAT.length 0xffffffff).length := by
      intro i _ h1 _
      rw [List.length_replicate]
      omega
    rw [revBuildLoop_ok fs.FAT _ _ _ 0 hmem1 hw]
    show emitLoop fs.FAT _ (revApply fs.FAT _ _ _) _ _ _ [] ≠ _
    refine emitLoop_not_fault fs.FAT _ _ _ _ hlen ?_ _ [] ?_
    · rw [length_revApply, List.length_replicate]
      exact hlen
    · intro i hi
      rcases List.mem_range'.mp hi with ⟨k, hk, rfl⟩
      omega
  · intro fs h
    by_cases hspc : fs.Header.BPB.SectorsPerCluster = 0
    · rw [GetAllChains_eq, if_pos hspc]
    · rcases h with h | ⟨hlt, hgt⟩
      · exact absurd h hspc
      · rw [GetAllChains_eq, if_neg hspc]
        rw [revBuildLoop_fault_of_mem fs.FAT _ _ _ 0
          ⟨max 2 fs.FAT.length, List.mem_range'.mpr ⟨max 2 fs.FAT.length - 2,
            by omega, by omega⟩, le_max_right _ _⟩]
        rfl

/-- Claim C8, counterexample to the claim as stated: a header violating
the precondition (`clusterCount = 2` exceeds the empty FAT) whose scan
nonetheless performs no out-of-bounds access and succeeds. -/
theorem C8_counterexample :
    fsC8.Header.BPB.SectorsPerCluster ≠ 0 ∧
    fsC8.FAT.length <
      fsC8.Header.BPB.LargeSectorCount / fsC8.Header.BPB.SectorsPerCluster ∧
    GetAllChains fsC8 = .ok [] := by
  refine ⟨by decide, by decide, by decide⟩

/-- Claim C8, witness: both conjuncts of the amended theorem applied at
concrete filesystems. -/
theorem C8_witness :
    GetAllChains fsC3 ≠ .fault ∧ GetAllChains fsOOB = .fault :=
  ⟨C8_fat_scan_bounds.1 fsC3 (by decide) (by decide),
   C8_fat_scan_bounds.2 fsOOB (Or.inr ⟨by decide, by decide⟩)⟩

/-! ## Claim C10 -/

/-- Claim C10: the "Internal error: not starting at end of chain" branch
of `followChainBackwards` is unreachable from `GetAllChains`: the caller
only passes indices whose masked entry is at least `clusterCount`, the
raw entry is at least the masked one, and no other error exists on the
path, so `GetAllChains` never returns a Go error at all — in particular
never that wrapped internal error. -/
theorem C10_internal_error_unreachable (fs : FAT32Filesystem) (s : String) :
    GetAllChains fs ≠ .err s := by
  rw [GetAllChains_eq]
  by_cases hspc : fs.Header.BPB.SectorsPerCluster = 0
  · rw [if_pos hspc]
    simp
  · rw [if_neg hspc]
    rcases hrb : revBuildLoop fs.FAT
        (fs.Header.BPB.LargeSectorCount / fs.Header.BPB.SectorsPerCluster)
        (List.range' 2
          (fs.Header.BPB.LargeSectorCount / fs.Header.BPB.SectorsPerCluster - 2))
        (List.replicate fs.FAT.length 0xffffffff) 0 with p | e' | _ | _
    · show emitLoop fs.FAT _ p.1 _ _ _ [] ≠ _
      exact emitLoop_not_err fs.FAT _ p.1 _ _ _ [] s
    · exact absurd hrb (revBuildLoop_not_err fs.FAT _ _ _ 0 e')
    · simp [ExecRes.bind]
    · simp [ExecRes.bind]

/-- Claim C10, witness: the specific wrapped internal error is never
returned, at a concrete filesystem. -/
theorem C10_witness :
    GetAllChains fsOOB ≠
      .err "Failed following chain back: Internal error: not starting at end of chain" :=
  C10_internal_error_unreachable fsOOB
    "Failed following chain back: Internal error: not starting at end of chain"

/-- The lowercase-then-uppercase alphabet content of the test file
`test_data/alphabet.txt` (52 bytes). -/
def alphaByte : Nat → Nat := fun n =>
  if n < 26 then 97 + n else if n < 52 then 65 + (n - 26) else 0

/-! ## Claim C6 -/

/-- Claim C6: for every limited reader of size `N` positioned at offset
`p`, a read with a buffer larger than the `N - p` remaining bytes returns
exactly those remaining bytes together with the end-of-stream signal on
that same call. (Spec-modelled: the limited reader source file is not
among the given sources.) -/
theorem C6_read_truncation (img : Nat → Nat) (imgLen : Nat)
    (w : limitedReadSeeker) (n : Nat)
    (h0 : 0 ≤ w.baseOffset) (h1 : 0 ≤ w.currentOffset)
    (h2 : w.currentOffset ≤ w.size)
    (h3 : w.size - w.currentOffset < (n : Int))
    (h4 : (w.baseOffset + w.size).toNat ≤ imgLen) :
    lrsRead img imgLen w n =
      ((List.range (w.size - w.currentOffset).toNat).map
         (fun i => img ((w.baseOffset + w.currentOffset).toNat + i)),
       { w with currentOffset :=
           w.currentOffset + ((w.size - w.currentOffset).toNat : Int) },
       true) := by
  have hk : min n (w.size - w.currentOffset).toNat = (w.size - w.currentOffset).toNat := by
    omega
  have hkk : min (w.size - w.currentOffset).toNat
      (imgLen - (w.baseOffset + w.currentOffset).toNat) =
      (w.size - w.currentOffset).toNat := by
    omega
  have heof : decide (w.size ≤ w.currentOffset + (n : Int)) = true := by
    simp
    omega
  simp only [lrsRead, hk, hkk, heof]

/-- Claim C6, witness: the window `[25, 27)` over the alphabet content
read with a 10-byte buffer returns 2 bytes "zA" (122, 65) and the
end-of-stream signal. -/
theorem C6_witness :
    lrsRead alphaByte 52 { baseOffset := 25, size := 2, currentOffset := 0 } 10 =
      ([122, 65], { baseOffset := 25, size := 2, currentOffset := 2 }, true) := by
  have h := C6_read_truncation alphaByte 52
    { baseOffset := 25, size := 2, currentOffset := 0 } 10
    (by decide) (by decide) (by decide) (by decide) (by decide)
  rw [h]
  decide

/-! ## Claim C5 -/

/-- Claim C5: opening a window on an existing window of base `B` and size
`S` fails whenever `limit > S` (it would exceed the parent's bound), and
otherwise returns a single flattened window of base `B + base` over the
ultimate source, with no wrapper chain, so reading `n` bytes from it
yields the source bytes starting at absolute offset `B + base`.
(Spec-modelled: the limited reader source file is not among the given
sources.) -/
theorem C5_window_nesting :
    (∀ (w : limitedReadSeeker) (base limit : Int), w.size < limit →
      LimitReadSeeker (.window w) base limit = .err "New limit exceeds parent bound") ∧
    (∀ (w : limitedReadSeeker) (base limit : Int) (img : Nat → Nat) (imgLen n : Nat),
      limit ≤ w.size → base < limit → 0 ≤ w.baseOffset → 0 ≤ base →
      (n : Int) ≤ limit - base → (w.baseOffset + base).toNat + n ≤ imgLen →
      LimitReadSeeker (.window w) base limit =
        .ok (limitedReadSeeker.mk (w.baseOffset + base) (limit - base) 0) ∧
      (lrsRead img imgLen (limitedReadSeeker.mk (w.baseOffset + base) (limit - base) 0)
          n).1 =
        (List.range n).map (fun i => img ((w.baseOffset + base).toNat + i))) := by
  constructor
  · intro w base limit hlim
    rw [LimitReadSeeker, if_pos hlim]
  · intro w base limit img imgLen n hlim hbase hb0 hbase0 hn hrange
    constructor
    · rw [LimitReadSeeker, if_neg (by omega), if_neg (by omega)]
    · have hk : min n (limit - base).toNat = n := by
        omega
      have hkk : min n (imgLen - (w.baseOffset + base).toNat) = n := by
        omega
      simp only [lrsRead, Int.add_zero, Int.sub_zero]
      rw [hk, hkk]

/-- Claim C5, witness: on the parent window `[3, 30)` (size 27) over the
alphabet content, opening `[1, 30)` fails with the parent-bound error,
opening `[1, 20)` yields the flattened window at absolute base 4, and
reading 3 bytes yields "efg" (101, 102, 103), the source bytes at
absolute offset 4. -/
theorem C5_witness :
    LimitReadSeeker (.window (limitedReadSeeker.mk 3 27 0)) 1 30 =
      .err "New limit exceeds parent bound" ∧
    LimitReadSeeker (.window (limitedReadSeeker.mk 3 27 0)) 1 20 =
      .ok (limitedReadSeeker.mk 4 19 0) ∧
    (lrsRead alphaByte 52 (limitedReadSeeker.mk 4 19 0) 3).1 = [101, 102, 103] := by
  refine ⟨C5_window_nesting.1 _ 1 30 (by decide), ?_, ?_⟩
  · have h := (C5_window_nesting.2 (limitedReadSeeker.mk 3 27 0)
      1 20 alphaByte 52 3 (by decide) (by decide) (by decide) (by decide)
      (by decide) (by decide)).1
    rw [h]
    decide
  · have h := (C5_window_nesting.2 (limitedReadSeeker.mk 3 27 0)
      1 20 alphaByte 52 3 (by decide) (by decide) (by decide) (by decide)
      (by decide) (by decide)).2
    rw [show limitedReadSeeker.mk (4 : Int) 19 0 =
      limitedReadSeeker.mk ((3 : Int) + 1) ((20 : Int) - 1) 0 by decide]
    rw [h]
    decide

/-! ## Claim C2 -/

/-- Claim C2 (amended): for an allocation table holding a linked run
`a → b` interrupted by `table[b] = 0` before an end-of-chain entry at `c`
(all other scanned entries free), `GetAllChains` does not crash and treats
the 0 entry as a chain break — but it returns ONE chain, not two: only
the cluster `c` carrying the end-of-chain mark seeds a chain; the run
`a → b` upstream of the 0 entry has no tail and is not returned at all. -/
theorem C2_zero_entry_break (fs : FAT32Filesystem) (cc a b c : Nat)
    (hspc : fs.Header.BPB.SectorsPerCluster ≠ 0)
    (hcc : fs.Header.BPB.LargeSectorCount / fs.Header.BPB.SectorsPerCluster = cc)
    (hcclen : cc ≤ fs.FAT.length)
    (hcc32 : cc ≤ 0xffffffff)
    (ha : 2 ≤ a) (ha2 : a < cc) (hb : 2 ≤ b) (hb2 : b < cc)
    (hc : 2 ≤ c) (hc2 : c < cc)
    (hab : a ≠ b) (hac : a ≠ c) (hbc : b ≠ c)
    (hva : mval fs.FAT a = b) (hvb : mval fs.FAT b = 0) (hvc : cc ≤ mval fs.FAT c)
    (hother : ∀ i, 2 ≤ i → i < cc → i ≠ a → i ≠ b → i ≠ c → mval fs.FAT i = 0) :
    GetAllChains fs =
      .ok [{ StartCluster := c, Contiguous := true,
             Size := (1 * SectorSize * fs.Header.BPB.SectorsPerCluster) % 2 ^ 64 }] := by
  have hmem1 : ∀ i ∈ List.range' 2 (cc - 2), i < fs.FAT.length := by
    intro i hi
    rcases List.mem_range'.mp hi with ⟨k, hk, rfl⟩
    omega
  have hmemcc : ∀ i ∈ List.range' 2 (cc - 2), 2 ≤ i ∧ i < cc := by
    intro i hi
    rcases List.mem_range'.mp hi with ⟨k, hk, rfl⟩
    omega
  have hw : ∀ i ∈ List.range' 2 (cc - 2),
      ¬ cc ≤ mval fs.FAT i → mval fs.FAT i ≠ 0 →
      mval fs.FAT i < (List.replicate fs.FAT.length 0xffffffff).length := by
    intro i _ h1 _
    rw [List.length_replicate]
    omega
  rw [GetAllChains_eq, if_neg hspc, hcc,
    revBuildLoop_ok fs.FAT cc _ _ 0 hmem1 hw]
  show emitLoop fs.FAT cc
    (revApply fs.FAT cc (List.range' 2 (cc - 2))
      (List.replicate fs.FAT.length 0xffffffff))
    fs.Header.BPB.SectorsPerCluster (fs.FAT.length + cc + 2)
    (List.range' 2 (cc - 2)) [] = _
  -- the reversed FAT never records a predecessor for c
  have hrevc : (revApply fs.FAT cc (List.range' 2 (cc - 2))
      (List.replicate fs.FAT.length 0xffffffff)).getD c 0 = 0xffffffff := by
    rw [revApply_getD]
    have hfind : (List.range' 2 (cc - 2)).reverse.find?
        (fun i => decide (writesTo fs.FAT cc i c)) = none := by
      rw [List.find?_eq_none]
      intro i hi
      have hi2 := hmemcc i (List.mem_reverse.mp hi)
      simp only [decide_eq_true_eq]
      intro hwr
      obtain ⟨hv, hvcc, hv0⟩ := hwr
      by_cases hia : i = a
      · subst hia
        rw [hva] at hv
        exact hbc hv
      · by_cases hib : i = b
        · subst hib
          rw [hvb] at hv
          omega
        · by_cases hic : i = c
          · subst hic
            omega
          · rw [hother i hi2.1 hi2.2 hia hib hic] at hv
            omega
    rw [hfind]
    simp [List.getD_eq_getElem?_getD, List.getElem?_replicate, show c < fs.FAT.length by omega]
  -- the backward walk from c stops immediately
  have hback : backLoop (revApply fs.FAT cc (List.range' 2 (cc - 2))
      (List.replicate fs.FAT.length 0xffffffff)) cc
      (fs.FAT.length + cc + 2) c 1 = .ok (c, 1) := by
    have hclen : c < (revApply fs.FAT cc (List.range' 2 (cc - 2))
        (List.replicate fs.FAT.length 0xffffffff)).length := by
      rw [length_revApply, List.length_replicate]
      omega
    rw [backLoop, fatGet_eq_ok hclen]
    show (if (revApply fs.FAT cc (List.range' 2 (cc - 2))
        (List.replicate fs.FAT.length 0xffffffff)).getD c 0 < cc then _
      else ExecRes.ok (c, 1)) = ExecRes.ok (c, 1)
    rw [if_neg (by rw [hrevc]; omega)]
  -- the forward scan from c ends at once: the raw entry is an end mark
  have hcontig : contigLoop fs.FAT cc (fs.FAT.length + cc + 2) c = .ok true := by
    rw [contigLoop, fatGet_eq_ok (by omega)]
    show (if fs.FAT.getD c 0 < cc then _ else ExecRes.ok true) = ExecRes.ok true
    rw [if_neg (by
      have hle : mval fs.FAT c ≤ fs.FAT.getD c 0 := Nat.and_le_left
      omega)]
  have hfollow : followChainBackwards fs.FAT cc
      (revApply fs.FAT cc (List.range' 2 (cc - 2))
        (List.replicate fs.FAT.length 0xffffffff))
      fs.Header.BPB.SectorsPerCluster (fs.FAT.length + cc + 2) c =
      .ok { StartCluster := c, Contiguous := true,
            Size := (1 * SectorSize * fs.Header.BPB.SectorsPerCluster) % 2 ^ 64 } := by
    rw [followChainBackwards, fatGet_eq_ok (by omega)]
    simp only [ExecRes.bind]
    rw [if_neg (by
      have hle : mval fs.FAT c ≤ fs.FAT.getD c 0 := Nat.and_le_left
      omega), hback]
    show (contigLoop fs.FAT cc (fs.FAT.length + cc + 2) c).bind _ = _
    rw [hcontig]
    rfl
  rw [emitLoop_ok fs.FAT cc _ fs.Header.BPB.SectorsPerCluster (fs.FAT.length + cc + 2)
    (fun _ => { StartCluster := c, Contiguous := true,
                Size := (1 * SectorSize * fs.Header.BPB.SectorsPerCluster) % 2 ^ 64 })
    (List.range' 2 (cc - 2)) [] hmem1 ?htails]
  case htails =>
    intro i hi hcci
    have hi2 := hmemcc i hi
    have hieq : i = c := by
      by_cases hia : i = a
      · subst hia
        rw [hva] at hcci
        omega
      · by_cases hib : i = b
        · subst hib
          rw [hvb] at hcci
          omega
        · by_cases hic : i = c
          · exact hic
          · rw [hother i hi2.1 hi2.2 hia hib hic] at hcci
            omega
    subst hieq
    exact hfollow
  have hfilter : (List.range' 2 (cc - 2)).filter
      (fun i => decide (cc ≤ mval fs.FAT i)) = [c] := by
    refine filter_eq_singleton _ (List.nodup_range' 2 (cc - 2)) c
      (List.mem_range'.mpr ⟨c - 2, by omega, by omega⟩) (by simp [hvc]) ?_
    intro x hx hxc
    have hx2 := hmemcc x hx
    simp only [decide_eq_false_iff_not, Nat.not_le]
    by_cases hxa : x = a
    · subst hxa
      rw [hva]
      omega
    · by_cases hxb : x = b
      · subst hxb
        rw [hvb]
        omega
      · rw [hother x hx2.1 hx2.2 hxa hxb hxc]
        omega
  rw [hfilter]
  rfl

/-- Claim C2, counterexample to the claim as stated: the concrete table
`table[2]=3, table[3]=0, table[4]=end-of-chain` (6 one-sector clusters)
returns ONE chain (the singleton at cluster 4), not the two chains the
claim asserts, and clusters 2 and 3 are in no returned chain. -/
theorem C2_counterexample :
    GetAllChains
      { Header := { BPB := { SectorsPerCluster := 1, LargeSectorCount := 6 } },
        FAT := [0, 0, 3, 0, 0x0fffffff, 0] } =
      .ok [{ StartCluster := 4, Contiguous := true, Size := 512 }] := by
  decide

/-- Claim C2, witness: the amended theorem applied at the concrete broken
table (a=2, b=3, c=4). -/
theorem C2_witness :
    GetAllChains
      { Header := { BPB := { SectorsPerCluster := 1, LargeSectorCount := 6 } },
        FAT := [0, 0, 3, 0, 0x0fffffff, 0] } =
      .ok [{ StartCluster := 4, Contiguous := true, Size := (1 * SectorSize * 1) % 2 ^ 64 }] := by
  exact C2_zero_entry_break
    { Header := { BPB := { SectorsPerCluster := 1, LargeSectorCount := 6 } },
      FAT := [0, 0, 3, 0, 0x0fffffff, 0] }
    6 2 3 4 (by decide) (by decide) (by decide) (by decide) (by decide) (by decide)
    (by decide) (by decide) (by decide) (by decide) (by decide) (by decide)
    (by decide) (by decide) (by decide) (by decide)
    (by
      intro i h2 h6 hia hib hic
      interval_cases i
      · exact absurd rfl hia
      · exact absurd rfl hib
      · exact absurd rfl hic
      · decide)

/-! ## Running the cluster-walking reader over whole clusters

For whole-cluster reads (total size a multiple of the cluster size) the
read loop consumes exactly one cluster per iteration; these lemmas
describe that run for an arbitrary cluster sequence `cl`. -/

/-- The bytes the loop collects from cluster `cl j` to the last cluster,
reading each cluster in full at its data offset. -/
def chainSegs (fs : FAT32Filesystem) (img : Nat → Nat) (cs : Nat)
    (cl : Nat → Nat) (j m : Nat) : List Nat :=
  ((List.range (m - j)).map (fun k =>
    (List.range cs).map (fun i => img ((GetDataOffsetVal fs (cl (j + k)) 0).toNat + i)))).flatten

theorem chainSegs_cons (fs : FAT32Filesystem) (img : Nat → Nat) (cs : Nat)
    (cl : Nat → Nat) (j m : Nat) (h : j < m) :
    chainSegs fs img cs cl j m =
      (List.range cs).map (fun i => img ((GetDataOffsetVal fs (cl j) 0).toNat + i)) ++
        chainSegs fs img cs cl (j + 1) m := by
  unfold chainSegs
  rw [show m - j = 1 + (m - (j + 1)) by omega, List.range_add, List.map_append,
    List.flatten_append]
  congr 1
  · simp [List.range_succ]
  · rw [List.map_map]
    congr 1
    apply List.map_congr_left
    intro k _
    simp only [Function.comp]
    rw [show j + (1 + k) = j + 1 + k by omega]

theorem seg_if_eq (img : Nat → Nat) (imgLen off n : Nat) (h : off + n ≤ imgLen) :
    (List.range n).map (fun i => if off + i < imgLen then img (off + i) else 0) =
      (List.range n).map (fun i => img (off + i)) := by
  apply List.map_congr_left
  intro i hi
  rw [if_pos (by have := List.mem_range.mp hi; omega)]

/-- A positive cluster size rules out the divide-by-zero panic. -/
theorem GetClusterSize_ne_of_pos (fs : FAT32Filesystem)
    (h : 0 < (GetClusterSize fs).toNat) : GetClusterSize fs ≠ 0 := by
  intro h0
  rw [h0] at h
  simp at h

/-- `GetDataOffset` computes its value whenever the cluster size is
non-zero. -/
theorem GetDataOffset_ok (fs : FAT32Filesystem) (c offset : Nat)
    (h : GetClusterSize fs ≠ 0) :
    GetDataOffset fs c offset = .ok (GetDataOffsetVal fs c offset) := by
  rw [GetDataOffset, if_neg h]

/-- One whole-cluster run of the `chainReader.Read` loop: starting at the
beginning of cluster `cl j` with `j * cs` bytes already consumed out of a
total of `m * cs`, the loop delivers the remaining clusters in order and
stops on the last one without advancing past it. -/
theorem chainReadLoop_run (fs : FAT32Filesystem) (img : Nat → Nat) (imgLen : Nat)
    (cs S dstLen m : Nat) (cl : Nat → Nat)
    (hcs0 : 0 < cs) (hgcs : GetClusterSize fs ≠ 0)
    (hS : S = m * cs) (hdst : S ≤ dstLen) (hS32 : S < 2 ^ 32)
    (hlinks : ∀ j, j + 1 < m → fs.FAT[cl j]? = some (cl (j + 1)) ∧
      cl (j + 1) ≠ 0 ∧ cl (j + 1) < 0x0ffffff7)
    (hoff : ∀ j, j < m → 0 ≤ GetDataOffsetVal fs (cl j) 0 ∧
      (GetDataOffsetVal fs (cl j) 0).toNat + cs ≤ imgLen) :
    ∀ (r j : Nat) (acc : List Nat), j + r = m → 0 < r →
      chainReadLoop fs img imgLen cs S dstLen (j * cs) (j * cs) (cl j) acc =
        .ok (acc ++ chainSegs fs img cs cl j m, S % 2 ^ 32, cl (m - 1), false)
  | 0, j, acc, hjm, hr => by omega
  | r + 1, j, acc, hjm, _ => by
    have hjlt : j < m := by omega
    have hm0 : 0 < m := by omega
    have hexp : (j + 1) * cs = j * cs + cs := by ring
    have hj1m : (j + 1) * cs ≤ m * cs := Nat.mul_le_mul_right cs (by omega)
    have hcsS : cs ≤ S := by
      rw [hS]
      exact Nat.le_mul_of_pos_left cs hm0
    have hcur : j * cs < S := by
      rw [hS]
      omega
    have hmod : j * cs % cs = 0 := Nat.mul_mod_left j cs
    have hd0 := hoff j hjlt
    have hstep : j * cs + cs ≤ S := by
      rw [hS]
      omega
    rw [chainReadLoop, dif_pos hcur, dif_neg (by omega)]
    simp only [hmod, Nat.sub_zero]
    have htr : min S cs = cs := by omega
    rw [htr]
    rw [GetDataOffset_ok fs (cl j) 0 hgcs]
    simp only [ExecRes.bind]
    rw [if_neg (show ¬ GetDataOffsetVal fs (cl j) 0 < 0 by omega)]
    rw [if_neg (show ¬ dstLen < j * cs + cs by omega)]
    rw [if_neg (show ¬ imgLen ≤ (GetDataOffsetVal fs (cl j) 0).toNat by omega)]
    rw [seg_if_eq img imgLen (GetDataOffsetVal fs (cl j) 0).toNat cs hd0.2]
    by_cases hlast : j + 1 = m
    · have hSeq : S = j * cs + cs := by
        rw [hS, ← hlast]
        ring
      rw [if_pos (by omega)]
      have hm1 : m - 1 = j := by omega
      have hro : (j * cs + cs) % 2 ^ 32 = S % 2 ^ 32 := by
        rw [hSeq]
      rw [hro, hm1]
      have hsegs : chainSegs fs img cs cl j m =
          (List.range cs).map (fun i => img ((GetDataOffsetVal fs (cl j) 0).toNat + i)) := by
        rw [chainSegs_cons fs img cs cl j m hjlt]
        unfold chainSegs
        rw [show m - (j + 1) = 0 by omega]
        simp
      rw [hsegs]
    · have hstrict : j * cs + cs < S := by
        rw [hS]
        have : (j + 1) * cs < m * cs :=
          (Nat.mul_lt_mul_right hcs0).mpr (by omega)
        omega
      rw [if_neg (show ¬ S ≤ j * cs + cs by omega)]
      obtain ⟨hlink, hnz, hlt⟩ := hlinks j (by omega)
      rw [fatGet_of_getElem? hlink]
      simp only [ExecRes.bind]
      rw [if_neg (by push_neg; exact ⟨hnz, by omega⟩)]
      have harg2 : (j * cs + cs) % 2 ^ 32 = (j + 1) * cs := by
        rw [← hexp]
        exact Nat.mod_eq_of_lt (by omega)
      rw [harg2, show j * cs + cs = (j + 1) * cs from hexp.symm]
      rw [chainReadLoop_run fs img imgLen cs S dstLen m cl hcs0 hgcs hS hdst hS32 hlinks hoff
        r (j + 1) _ (by omega) (by omega)]
      rw [chainSegs_cons fs img cs cl j m hjlt, List.append_assoc]

/-- Reading a cluster-walking reader of size `S = m · cs` (whole
clusters, positive) to exhaustion: one `Read` with an `S + 1` buffer
delivers the `m` clusters in order and signals end-of-stream. -/
theorem chainReadToEOF_run (fs : FAT32Filesystem) (img : Nat → Nat) (imgLen : Nat)
    (cs S m : Nat) (cl : Nat → Nat)
    (hcsdef : (GetClusterSize fs).toNat = cs)
    (hcs0 : 0 < cs) (hS : S = m * cs) (hm : 0 < m) (hS32 : S < 2 ^ 32)
    (hlinks : ∀ j, j + 1 < m → fs.FAT[cl j]? = some (cl (j + 1)) ∧
      cl (j + 1) ≠ 0 ∧ cl (j + 1) < 0x0ffffff7)
    (hoff : ∀ j, j < m → 0 ≤ GetDataOffsetVal fs (cl j) 0 ∧
      (GetDataOffsetVal fs (cl j) 0).toNat + cs ≤ imgLen) :
    chainReadToEOF fs img imgLen (chainReader.mk 0 (cl 0) S) =
      .ok (chainSegs fs img cs cl 0 m,
           chainReader.mk (S % 2 ^ 32) (cl (m - 1)) S, true) := by
  unfold chainReadToEOF chainReaderRead
  rw [hcsdef]
  simp only []
  have hc : ((S : Int) - ((0 : Nat) : Int) < ((S + 1 : Nat) : Int)) := by
    push_cast
    omega
  rw [if_pos hc, decide_eq_true hc]
  have hbt : (((S : Int) - ((0 : Nat) : Int)).toNat) = S := by
    push_cast
    omega
  rw [hbt]
  have hgcs : GetClusterSize fs ≠ 0 := GetClusterSize_ne_of_pos fs (by rw [hcsdef]; exact hcs0)
  have hloop := chainReadLoop_run fs img imgLen cs S (S + 1) m cl hcs0 hgcs hS (by omega) hS32
    hlinks hoff m 0 [] (by omega) hm
  simp only [Nat.zero_mul, List.nil_append] at hloop
  rw [hloop]
  rfl

/-- Overshooting run of the `chainReader.Read` loop: when the quota `S`
is not a whole number of clusters (`(m-1)·cs < S ≤ m·cs`), each iteration
still reads `min S cs = cs` whole bytes — the source computes the
per-iteration amount from the total `bytesToRead`, not from what is still
missing — so the loop delivers all `m·cs` bytes, overshooting the quota,
provided the destination buffer is large enough to take them. -/
theorem chainReadLoop_run_ceil (fs : FAT32Filesystem) (img : Nat → Nat) (imgLen : Nat)
    (cs S dstLen m : Nat) (cl : Nat → Nat)
    (hcs0 : 0 < cs) (hgcs : GetClusterSize fs ≠ 0)
    (hcsS : cs ≤ S) (hlow : (m - 1) * cs < S) (hhigh : S ≤ m * cs)
    (hdst : m * cs ≤ dstLen) (hS32 : m * cs < 2 ^ 32)
    (hlinks : ∀ j, j + 1 < m → fs.FAT[cl j]? = some (cl (j + 1)) ∧
      cl (j + 1) ≠ 0 ∧ cl (j + 1) < 0x0ffffff7)
    (hoff : ∀ j, j < m → 0 ≤ GetDataOffsetVal fs (cl j) 0 ∧
      (GetDataOffsetVal fs (cl j) 0).toNat + cs ≤ imgLen) :
    ∀ (r j : Nat) (acc : List Nat), j + r = m → 0 < r →
      chainReadLoop fs img imgLen cs S dstLen (j * cs) (j * cs) (cl j) acc =
        .ok (acc ++ chainSegs fs img cs cl j m, (m * cs) % 2 ^ 32, cl (m - 1), false)
  | 0, j, acc, hjm, hr => by omega
  | r + 1, j, acc, hjm, _ => by
    have hjlt : j < m := by omega
    have hm0 : 0 < m := by omega
    have hexp : (j + 1) * cs = j * cs + cs := by ring
    have hjm1 : j * cs ≤ (m - 1) * cs := Nat.mul_le_mul_right cs (by omega)
    have hdstj : (j + 1) * cs ≤ m * cs := Nat.mul_le_mul_right cs (by omega)
    have hcur : j * cs < S := by omega
    have hmod : j * cs % cs = 0 := Nat.mul_mod_left j cs
    have hd0 := hoff j hjlt
    rw [chainReadLoop, dif_pos hcur, dif_neg (by omega)]
    simp only [hmod, Nat.sub_zero]
    have htr : min S cs = cs := by omega
    rw [htr]
    rw [GetDataOffset_ok fs (cl j) 0 hgcs]
    simp only [ExecRes.bind]
    rw [if_neg (show ¬ GetDataOffsetVal fs (cl j) 0 < 0 by omega)]
    rw [if_neg (show ¬ dstLen < j * cs + cs by omega)]
    rw [if_neg (show ¬ imgLen ≤ (GetDataOffsetVal fs (cl j) 0).toNat by omega)]
    rw [seg_if_eq img imgLen (GetDataOffsetVal fs (cl j) 0).toNat cs hd0.2]
    by_cases hlast : j + 1 = m
    · have hmcs : m * cs = (j + 1) * cs := by rw [hlast]
      rw [if_pos (by omega)]
      have hm1 : m - 1 = j := by omega
      have hro : (j * cs + cs) % 2 ^ 32 = (m * cs) % 2 ^ 32 := by
        rw [hmcs, hexp]
      rw [hro, hm1]
      have hsegs : chainSegs fs img cs cl j m =
          (List.range cs).map (fun i => img ((GetDataOffsetVal fs (cl j) 0).toNat + i)) := by
        rw [chainSegs_cons fs img cs cl j m hjlt]
        unfold chainSegs
        rw [show m - (j + 1) = 0 by omega]
        simp
      rw [hsegs]
    · have hmeq : (j + 1) * cs ≤ (m - 1) * cs := Nat.mul_le_mul_right cs (by omega)
      have hstrict : j * cs + cs < S := by omega
      rw [if_neg (show ¬ S ≤ j * cs + cs by omega)]
      obtain ⟨hlink, hnz, hlt⟩ := hlinks j (by omega)
      rw [fatGet_of_getElem? hlink]
      simp only [ExecRes.bind]
      rw [if_neg (by push_neg; exact ⟨hnz, by omega⟩)]
      have harg2 : (j * cs + cs) % 2 ^ 32 = (j + 1) * cs := by
        rw [← hexp]
        exact Nat.mod_eq_of_lt (by omega)
      rw [harg2, show j * cs + cs = (j + 1) * cs from hexp.symm]
      rw [chainReadLoop_run_ceil fs img imgLen cs S dstLen m cl hcs0 hgcs hcsS hlow hhigh hdst
        hS32 hlinks hoff r (j + 1) _ (by omega) (by omega)]
      rw [chainSegs_cons fs img cs cl j m hjlt, List.append_assoc]

/-- A single `Read` of a cluster-walking reader whose size `S` is not a
whole number of clusters, with a buffer of `dstLen > S` bytes able to
hold `m·cs` bytes: the read overshoots and hands back all `m·cs` bytes of
the chain's `m` clusters together with the end-of-stream signal. -/
theorem chainReaderRead_run_ceil (fs : FAT32Filesystem) (img : Nat → Nat) (imgLen : Nat)
    (cs S dstLen m : Nat) (cl : Nat → Nat)
    (hcsdef : (GetClusterSize fs).toNat = cs)
    (hcs0 : 0 < cs) (hcsS : cs ≤ S) (hlow : (m - 1) * cs < S) (hhigh : S ≤ m * cs)
    (hdst : m * cs ≤ dstLen) (hS32 : m * cs < 2 ^ 32) (hSdst : S < dstLen) (hm : 0 < m)
    (hlinks : ∀ j, j + 1 < m → fs.FAT[cl j]? = some (cl (j + 1)) ∧
      cl (j + 1) ≠ 0 ∧ cl (j + 1) < 0x0ffffff7)
    (hoff : ∀ j, j < m → 0 ≤ GetDataOffsetVal fs (cl j) 0 ∧
      (GetDataOffsetVal fs (cl j) 0).toNat + cs ≤ imgLen) :
    chainReaderRead fs img imgLen (chainReader.mk 0 (cl 0) S) dstLen =
      .ok (chainSegs fs img cs cl 0 m,
           chainReader.mk ((m * cs) % 2 ^ 32) (cl (m - 1)) S, true) := by
  unfold chainReaderRead
  rw [hcsdef]
  simp only []
  have hc : ((S : Int) - ((0 : Nat) : Int) < (dstLen : Int)) := by
    push_cast
    omega
  rw [if_pos hc, decide_eq_true hc]
  have hbt : (((S : Int) - ((0 : Nat) : Int)).toNat) = S := by
    push_cast
    omega
  rw [hbt]
  have hgcs : GetClusterSize fs ≠ 0 := GetClusterSize_ne_of_pos fs (by rw [hcsdef]; exact hcs0)
  have hloop := chainReadLoop_run_ceil fs img imgLen cs S dstLen m cl hcs0 hgcs hcsS hlow hhigh
    hdst hS32 hlinks hoff m 0 [] (by omega) hm
  simp only [Nat.zero_mul, List.nil_append] at hloop
  rw [hloop]
  rfl

/-- The fuel-indexed cluster loop agrees with `chainReadLoop` whenever the
fuel exceeds the remaining quota: every iteration consumes at least one
byte of the quota. -/
theorem chainReadLoop_eq_fuel (fs : FAT32Filesystem) (img : Nat → Nat) (imgLen : Nat)
    (clusterSize bytesToRead dstLen : Nat) :
    ∀ (fuel : Nat), ∀ (cur ro cl : Nat) (acc : List Nat), bytesToRead - cur < fuel →
      chainReadLoop fs img imgLen clusterSize bytesToRead dstLen cur ro cl acc =
      chainReadLoopFuel fs img imgLen clusterSize bytesToRead dstLen fuel cur ro cl acc := by
  intro fuel
  induction fuel with
  | zero =>
    intro cur ro cl acc h
    exact absurd h (by omega)
  | succ fuel ih =>
    intro cur ro cl acc hfuel
    rw [chainReadLoop, chainReadLoopFuel]
    by_cases h1 : cur < bytesToRead
    · rw [dif_pos h1, if_pos h1]
      by_cases h2 : clusterSize = 0
      · rw [dif_pos h2, if_pos h2]
      · rw [dif_neg h2, if_neg h2]
        simp only []
        have hm0 : ro % clusterSize < clusterSize := Nat.mod_lt ro (Nat.pos_of_ne_zero h2)
        cases hgo : GetDataOffset fs cl (ro % clusterSize) with
        | ok dOff =>
          simp only [ExecRes.bind]
          by_cases h3 : dOff < 0
          · rw [if_pos h3, if_pos h3]
          · rw [if_neg h3, if_neg h3]
            by_cases h4 : dstLen < cur + min bytesToRead (clusterSize - ro % clusterSize)
            · rw [if_pos h4, if_pos h4]
            · rw [if_neg h4, if_neg h4]
              by_cases h5 : imgLen ≤ dOff.toNat
              · rw [if_pos h5, if_pos h5]
              · rw [if_neg h5, if_neg h5]
                by_cases h6 : bytesToRead ≤ cur + min bytesToRead (clusterSize - ro % clusterSize)
                · rw [if_pos h6, if_pos h6]
                · rw [if_neg h6, if_neg h6]
                  cases hg : fatGet fs.FAT cl with
                  | ok v =>
                    simp only [ExecRes.bind]
                    by_cases h7 : v = 0 ∨ 0x0ffffff7 ≤ v
                    · rw [if_pos h7, if_pos h7]
                    · rw [if_neg h7, if_neg h7]
                      exact ih _ _ _ _ (by omega)
                  | err s => rfl
                  | fault => rfl
                  | diverge => rfl
        | err s => rfl
        | fault => rfl
        | diverge => rfl
    · rw [dif_neg h1, if_neg h1]

/-- `chainReaderRead` equals its fuel-computed restatement: the quota
never exceeds the buffer length, so `dstLen + 1` fuel always suffices. -/
theorem chainReaderRead_eq_fuel (fs : FAT32Filesystem) (img : Nat → Nat) (imgLen : Nat)
    (st : chainReader) (dstLen : Nat) :
    chainReaderRead fs img imgLen st dstLen = chainReaderReadFuel fs img imgLen st dstLen := by
  unfold chainReaderRead chainReaderReadFuel
  have h := chainReadLoop_eq_fuel fs img imgLen (GetClusterSize fs).toNat
      (if (st.size : Int) - (st.readOffset : Int) < (dstLen : Int)
        then ((st.size : Int) - (st.readOffset : Int)).toNat else dstLen)
      dstLen (dstLen + 1) 0 st.readOffset st.currentCluster []
      (by split <;> omega)
  simp only []
  rw [h]

/-- `chainReadToEOF` computed through the fuel-indexed loop. -/
theorem chainReadToEOF_eq_fuel (fs : FAT32Filesystem) (img : Nat → Nat) (imgLen : Nat)
    (st : chainReader) :
    chainReadToEOF fs img imgLen st = chainReaderReadFuel fs img imgLen st (st.size + 1) :=
  chainReaderRead_eq_fuel fs img imgLen st (st.size + 1)

/-- Whole-cluster segments at consecutive offsets concatenate to a single
contiguous byte range. -/
theorem flatten_consecutive (img : Nat → Nat) (d cs : Nat) :
    ∀ m : Nat,
      ((List.range m).map (fun k =>
        (List.range cs).map (fun i => img (d + k * cs + i)))).flatten =
      (List.range (m * cs)).map (fun i => img (d + i))
  | 0 => by simp
  | m + 1 => by
    rw [List.range_succ, List.map_append, List.flatten_append,
      flatten_consecutive img d cs m,
      show (m + 1) * cs = m * cs + cs by ring, List.range_add, List.map_append]
    congr 1
    simp only [List.map_cons, List.map_nil, List.flatten_cons, List.flatten_nil,
      List.append_nil, List.map_map]
    apply List.map_congr_left
    intro i _
    simp only [Function.comp]
    rw [Nat.add_assoc]

/-- Total byte length collected from clusters `j..m`. -/
theorem chainSegs_length (fs : FAT32Filesystem) (img : Nat → Nat) (cs : Nat)
    (cl : Nat → Nat) (j m : Nat) :
    (chainSegs fs img cs cl j m).length = (m - j) * cs := by
  unfold chainSegs
  rw [List.length_flatten, List.map_map]
  have : (List.map (List.length ∘ fun k =>
      (List.range cs).map (fun i => img ((GetDataOffsetVal fs (cl (j + k)) 0).toNat + i)))
      (List.range (m - j))) = List.map (fun _ => cs) (List.range (m - j)) := by
    apply List.map_congr_left
    intro k _
    simp [Function.comp]
  rw [this]
  simp [List.map_const]

/-- The data offset is linear in the cluster number. -/
theorem GetDataOffsetVal_add (fs : FAT32Filesystem) (x j : Nat) :
    GetDataOffsetVal fs (x + j) 0 = GetDataOffsetVal fs x 0 + (j : Int) * GetClusterSize fs := by
  unfold GetDataOffsetVal
  simp only [Nat.cast_zero, Int.zero_emod]
  push_cast
  ring

/-- The contiguous branch of `GetChainReader` returns a window over
`[dataStart, dataStart + int64(Size))` against the underlying source. -/
theorem GetChainReader_contiguous (fs : FAT32Filesystem) (c : FATChain)
    (hcont : c.Contiguous = true) (hgcs : GetClusterSize fs ≠ 0)
    (hpos : 0 < toInt64 c.Size) :
    GetChainReader fs c =
      .ok (.window (limitedReadSeeker.mk (GetDataOffsetVal fs c.StartCluster 0)
        (toInt64 c.Size) 0)) := by
  unfold GetChainReader
  rw [if_pos hcont, GetDataOffset_ok fs c.StartCluster 0 hgcs]
  simp only [ExecRes.bind]
  have hl : LimitReadSeeker .raw (GetDataOffsetVal fs c.StartCluster 0)
      (GetDataOffsetVal fs c.StartCluster 0 + toInt64 c.Size) =
      .ok (limitedReadSeeker.mk (GetDataOffsetVal fs c.StartCluster 0)
        (GetDataOffsetVal fs c.StartCluster 0 + toInt64 c.Size -
          GetDataOffsetVal fs c.StartCluster 0) 0) := by
    unfold LimitReadSeeker
    rw [if_neg (by omega)]
  rw [hl]
  rw [show GetDataOffsetVal fs c.StartCluster 0 + toInt64 c.Size -
      GetDataOffsetVal fs c.StartCluster 0 = toInt64 c.Size by omega]

/-- For sizes below 2^63 the `uint64` to `int64` reinterpretation is the
identity. -/
theorem toInt64_small (n : Nat) (h : n < 2 ^ 63) : toInt64 n = (n : Int) := by
  unfold toInt64
  rw [Nat.mod_eq_of_lt (by omega), if_pos (by omega)]

theorem GetDataOffsetVal_nonneg (fs : FAT32Filesystem) (x : Nat) (hx : 2 ≤ x) :
    0 ≤ GetDataOffsetVal fs x 0 := by
  unfold GetDataOffsetVal GetClusterSize
  simp only [Nat.cast_zero, Int.zero_emod]
  have h1 : (0:Int) ≤ ((fs.Header.BPB.ReservedSectorCount : Int) +
      ((fs.Header.BPB.FATCount * fs.Header.EBR.SectorsPerFAT) % 2 ^ 32 : Nat)) *
      (SectorSize : Int) :=
    mul_nonneg (add_nonneg (Int.natCast_nonneg _) (Int.natCast_nonneg _))
      (Int.natCast_nonneg _)
  have h2 : (0:Int) ≤ ((x : Int) - 2) *
      ((fs.Header.BPB.SectorsPerCluster : Int) * (SectorSize : Int)) :=
    mul_nonneg (by omega) (mul_nonneg (Int.natCast_nonneg _) (Int.natCast_nonneg _))
  omega

/-! ## Claim C4 -/

/-- Claim C4 (amended): for a chain marked contiguous whose size is below
2^32 and whose FAT links genuinely step by one cluster, the fast path
returned by `GetChainReader` (a window over
`[dataStart, dataStart + Size)`) and the fragmented cluster-walking
reader run over the same chain produce byte-for-byte identical output:
both deliver exactly the image bytes starting at the chain's data offset.
(The original unrestricted claim is false: a chain can be marked
contiguous although its masked links do not step by one — the C3 bug — in
which case the walker errors while the window succeeds, and a chain with
`Size ≥ 2^32` is truncated in the walker — claim C9.) -/
theorem C4_contiguous_fast_path_equivalence (fs : FAT32Filesystem) (img : Nat → Nat)
    (imgLen : Nat) (c : FATChain) (m : Nat)
    (hcont : c.Contiguous = true)
    (hm : 0 < m)
    (hcs0 : 0 < (GetClusterSize fs).toNat)
    (hsize : c.Size = m * (GetClusterSize fs).toNat)
    (hs32 : c.Size < 2 ^ 32)
    (hstart : 2 ≤ c.StartCluster)
    (hbound : c.StartCluster + m < 0x0ffffff7)
    (hlinks : ∀ j, j + 1 < m → fs.FAT[c.StartCluster + j]? = some (c.StartCluster + j + 1))
    (hrange : (GetDataOffsetVal fs c.StartCluster 0).toNat + c.Size ≤ imgLen) :
    GetChainReader fs c =
      .ok (.window (limitedReadSeeker.mk (GetDataOffsetVal fs c.StartCluster 0) (c.Size : Int) 0)) ∧
    (lrsReadToEOF img imgLen
        (limitedReadSeeker.mk (GetDataOffsetVal fs c.StartCluster 0) (c.Size : Int) 0)).1 =
      (List.range c.Size).map (fun i => img ((GetDataOffsetVal fs c.StartCluster 0).toNat + i)) ∧
    ∃ st' : chainReader,
      chainReadToEOF fs img imgLen (mkChainWalker c) =
        .ok ((List.range c.Size).map (fun i => img ((GetDataOffsetVal fs c.StartCluster 0).toNat + i)),
          st', true) := by
  have hGCS0 : 0 ≤ GetClusterSize fs := by
    unfold GetClusterSize
    positivity
  have hGCScast : GetClusterSize fs = (((GetClusterSize fs).toNat : Nat) : Int) :=
    (Int.toNat_of_nonneg hGCS0).symm
  have hd0 : 0 ≤ GetDataOffsetVal fs c.StartCluster 0 := GetDataOffsetVal_nonneg fs c.StartCluster hstart
  have hsz0 : 0 < c.Size := by
    rw [hsize]
    exact Nat.mul_pos hm hcs0
  have htoNat : ∀ j : Nat, (GetDataOffsetVal fs (c.StartCluster + j) 0).toNat =
      (GetDataOffsetVal fs c.StartCluster 0).toNat + j * (GetClusterSize fs).toNat := by
    intro j
    have hcast : ((j * (GetClusterSize fs).toNat : Nat) : Int) =
        (j : Int) * GetClusterSize fs := by
      push_cast
      rw [← hGCScast]
    rw [GetDataOffsetVal_add fs c.StartCluster j, ← hcast]
    omega
  have hoffj : ∀ j : Nat, 0 ≤ GetDataOffsetVal fs (c.StartCluster + j) 0 := by
    intro j
    rw [GetDataOffsetVal_add fs c.StartCluster j]
    have := mul_nonneg (Int.natCast_nonneg j) hGCS0
    omega
  have hlinks' : ∀ j, j + 1 < m →
      fs.FAT[(fun j => c.StartCluster + j) j]? = some ((fun j => c.StartCluster + j) (j + 1)) ∧
      (fun j => c.StartCluster + j) (j + 1) ≠ 0 ∧
      (fun j => c.StartCluster + j) (j + 1) < 0x0ffffff7 := by
    intro j hj
    refine ⟨?_, ?_, ?_⟩
    · show fs.FAT[c.StartCluster + j]? = some (c.StartCluster + (j + 1))
      rw [← Nat.add_assoc]
      exact hlinks j hj
    · show c.StartCluster + (j + 1) ≠ 0
      omega
    · show c.StartCluster + (j + 1) < 0x0ffffff7
      omega
  have hoff' : ∀ j, j < m → 0 ≤ GetDataOffsetVal fs ((fun j => c.StartCluster + j) j) 0 ∧
      (GetDataOffsetVal fs ((fun j => c.StartCluster + j) j) 0).toNat +
        (GetClusterSize fs).toNat ≤ imgLen := by
    intro j hj
    refine ⟨hoffj j, ?_⟩
    show (GetDataOffsetVal fs (c.StartCluster + j) 0).toNat + _ ≤ _
    rw [htoNat j]
    have h1 : (j + 1) * (GetClusterSize fs).toNat ≤ m * (GetClusterSize fs).toNat :=
      Nat.mul_le_mul_right _ (by omega)
    have h2 : (j + 1) * (GetClusterSize fs).toNat =
        j * (GetClusterSize fs).toNat + (GetClusterSize fs).toNat := by
      ring
    omega
  refine ⟨?_, ?_, ?_⟩
  · have hfast := GetChainReader_contiguous fs c hcont (GetClusterSize_ne_of_pos fs hcs0)
      (by rw [toInt64_small c.Size (by omega)]; omega)
    rw [toInt64_small c.Size (by omega)] at hfast
    exact hfast
  · unfold lrsReadToEOF lrsRead
    simp only [Int.add_zero, Int.sub_zero, Int.toNat_natCast]
    rw [show min (c.Size + 1) c.Size = c.Size by omega]
    rw [show min c.Size (imgLen - (GetDataOffsetVal fs c.StartCluster 0).toNat) = c.Size by omega]
  · have hsegs_eq : chainSegs fs img (GetClusterSize fs).toNat
        (fun j => c.StartCluster + j) 0 m =
        (List.range c.Size).map
          (fun i => img ((GetDataOffsetVal fs c.StartCluster 0).toNat + i)) := by
      unfold chainSegs
      have hinner : (List.range (m - 0)).map (fun k =>
          (List.range (GetClusterSize fs).toNat).map
            (fun i => img ((GetDataOffsetVal fs ((fun j => c.StartCluster + j) (0 + k)) 0).toNat + i))) =
          (List.range m).map (fun k =>
          (List.range (GetClusterSize fs).toNat).map
            (fun i => img ((GetDataOffsetVal fs c.StartCluster 0).toNat +
              k * (GetClusterSize fs).toNat + i))) := by
        rw [Nat.sub_zero]
        apply List.map_congr_left
        intro k _
        apply List.map_congr_left
        intro i _
        rw [show (fun j => c.StartCluster + j) (0 + k) = c.StartCluster + k by
          simp]
        rw [htoNat k]
      rw [hinner, flatten_consecutive img ((GetDataOffsetVal fs c.StartCluster 0).toNat)
        (GetClusterSize fs).toNat m, ← hsize]
    have hwalk := chainReadToEOF_run fs img imgLen (GetClusterSize fs).toNat c.Size m
      (fun j => c.StartCluster + j) rfl hcs0 hsize hm hs32 hlinks' hoff'
    rw [hsegs_eq] at hwalk
    refine ⟨chainReader.mk (c.Size % 2 ^ 32) (c.StartCluster + (m - 1)) c.Size, ?_⟩
    have hmk : mkChainWalker c = chainReader.mk 0 ((fun j => c.StartCluster + j) 0) c.Size := by
      unfold mkChainWalker
      rw [Nat.mod_eq_of_lt hs32]
      show chainReader.mk 0 c.StartCluster c.Size = _
      rw [show (fun j => c.StartCluster + j) 0 = c.StartCluster + 0 from rfl, Nat.add_zero]
    rw [hmk, hwalk]


/-- Filesystem with the spec's hand-constructed 3-cluster contiguous
chain at clusters 5, 6, 7. -/
def fsC4 : FAT32Filesystem :=
  { Header := { BPB := { SectorsPerCluster := 1, LargeSectorCount := 10 } },
    FAT := [0, 0, 0, 0, 0, 6, 7, 0x0ffffff8, 0, 0] }

/-- A deterministic byte source for reader witnesses. -/
def img256 : Nat → Nat := fun n => n % 256

/-- Claim C4, counterexample to the claim as stated: `GetAllChains` marks
the chain at cluster 2 of `fsC3` contiguous (see C3), yet running the
fragmented cluster-walking reader over that same chain aborts with the
internal chain-end error (its raw link `0x10000004` looks like an end
mark), while the fast path hands back a working window — the two paths
cannot produce identical byte sequences. -/
theorem C4_counterexample :
    GetAllChains fsC3 = .ok [{ StartCluster := 2, Contiguous := true, Size := 1024 }] ∧
    chainReadToEOF fsC3 img256 100000
      (mkChainWalker { StartCluster := 2, Contiguous := true, Size := 1024 }) =
      .err "Internal error: at chain end" ∧
    (match GetChainReader fsC3 { StartCluster := 2, Contiguous := true, Size := 1024 } with
      | .ok (.window _) => true
      | _ => false) = true := by
  refine ⟨by decide, ?_, by decide⟩
  rw [chainReadToEOF_eq_fuel]
  decide

/-- Claim C4, witness: the amended equivalence at the spec's 3-cluster
chain of `fsC4`. -/
theorem C4_witness :
    GetChainReader fsC4 { StartCluster := 5, Contiguous := true, Size := 1536 } =
      .ok (.window (limitedReadSeeker.mk (GetDataOffsetVal fsC4 5 0) (1536 : Int) 0)) ∧
    (lrsReadToEOF img256 100000
        (limitedReadSeeker.mk (GetDataOffsetVal fsC4 5 0) (1536 : Int) 0)).1 =
      (List.range 1536).map (fun i => img256 ((GetDataOffsetVal fsC4 5 0).toNat + i)) ∧
    ∃ st' : chainReader,
      chainReadToEOF fsC4 img256 100000
          (mkChainWalker { StartCluster := 5, Contiguous := true, Size := 1536 }) =
        .ok ((List.range 1536).map (fun i => img256 ((GetDataOffsetVal fsC4 5 0).toNat + i)),
          st', true) :=
  C4_contiguous_fast_path_equivalence fsC4 img256 100000
    { StartCluster := 5, Contiguous := true, Size := 1536 } 3
    (by decide) (by decide) (by decide) (by decide) (by decide) (by decide) (by decide)
    (by
      intro j hj
      have hj2 : j < 2 := by omega
      interval_cases j
      · decide
      · decide)
    (by decide)

/-! ## Claim C9 -/

/-- Claim C9 (amended): `GetChainReader` stores `uint32(c.Size)` — the
64-bit size truncated to 32 bits — in the cluster-walking reader of every
non-contiguous chain, while for every filesystem whose `SectorsPerCluster`
is non-zero (a zero value makes `GetDataOffset` panic with a
divide-by-zero before the window is built) the contiguous fast path is
bounded by the full 64-bit size; consequently, whenever the truncated
size is a whole number of clusters (in particular whenever
`SectorsPerCluster` is a power of two), reading the fragmented reader to
exhaustion delivers exactly `Size mod 2^32` bytes together with the
end-of-stream signal. (The original claim's "delivers only Size mod 2^32
bytes" is false when the truncated size is not cluster-aligned: the loop
then reads past its quota — see the counterexample, which delivers 3072
bytes for a truncated size of 2048.) -/
theorem C9_size_truncation :
    (∀ (fs : FAT32Filesystem) (c : FATChain), c.Contiguous = false →
      GetChainReader fs c =
        .ok (.walker (chainReader.mk 0 c.StartCluster (c.Size % 2 ^ 32)))) ∧
    (∀ (fs : FAT32Filesystem) (c : FATChain), c.Contiguous = true →
      fs.Header.BPB.SectorsPerCluster ≠ 0 →
      0 < c.Size → c.Size < 2 ^ 63 →
      GetChainReader fs c =
        .ok (.window (limitedReadSeeker.mk (GetDataOffsetVal fs c.StartCluster 0)
          (c.Size : Int) 0))) ∧
    (∀ (fs : FAT32Filesystem) (img : Nat → Nat) (imgLen : Nat) (c : FATChain)
        (m : Nat) (cl : Nat → Nat), c.Contiguous = false →
      cl 0 = c.StartCluster →
      c.Size % 2 ^ 32 = m * (GetClusterSize fs).toNat →
      0 < m → 0 < (GetClusterSize fs).toNat →
      (∀ j, j + 1 < m → fs.FAT[cl j]? = some (cl (j + 1)) ∧
        cl (j + 1) ≠ 0 ∧ cl (j + 1) < 0x0ffffff7) →
      (∀ j, j < m → 0 ≤ GetDataOffsetVal fs (cl j) 0 ∧
        (GetDataOffsetVal fs (cl j) 0).toNat + (GetClusterSize fs).toNat ≤ imgLen) →
      ∃ (bytes : List Nat) (st' : chainReader),
        chainReadToEOF fs img imgLen (mkChainWalker c) = .ok (bytes, st', true) ∧
        bytes.length = c.Size % 2 ^ 32) := by
  refine ⟨?_, ?_, ?_⟩
  · intro fs c hcont
    unfold GetChainReader
    rw [if_neg (by simp [hcont])]
  · intro fs c hcont hspc0 hpos h63
    have hgcs : GetClusterSize fs ≠ 0 := by
      unfold GetClusterSize
      exact mul_ne_zero (by exact_mod_cast hspc0) (by norm_num [SectorSize])
    have hfast := GetChainReader_contiguous fs c hcont hgcs
      (by rw [toInt64_small c.Size h63]; omega)
    rw [toInt64_small c.Size h63] at hfast
    exact hfast
  · intro fs img imgLen c m cl hcont hcl0 hsmod hm hcs0 hlinks hoff
    have hS32 : c.Size % 2 ^ 32 < 2 ^ 32 := Nat.mod_lt _ (by norm_num)
    have hwalk := chainReadToEOF_run fs img imgLen (GetClusterSize fs).toNat
      (c.Size % 2 ^ 32) m cl rfl hcs0 hsmod hm hS32 hlinks hoff
    have hmk : mkChainWalker c = chainReader.mk 0 (cl 0) (c.Size % 2 ^ 32) := by
      unfold mkChainWalker
      rw [hcl0]
    refine ⟨chainSegs fs img (GetClusterSize fs).toNat cl 0 m,
      chainReader.mk (c.Size % 2 ^ 32 % 2 ^ 32) (cl (m - 1)) (c.Size % 2 ^ 32), ?_, ?_⟩
    · rw [hmk, hwalk]
    · rw [chainSegs_length, Nat.sub_zero, ← hsmod]

/-- Filesystem for the C9 counterexample: cluster size 1536 (three
sectors per cluster) does not divide 2^32, so the truncated size 2048 is
not cluster-aligned. -/
def fsC9 : FAT32Filesystem :=
  { Header := { BPB := { SectorsPerCluster := 3, LargeSectorCount := 12 } },
    FAT := [0, 0, 3, 0x0fffffff] }

/-- Filesystem for the C9 witness: one-sector clusters, a two-cluster
fragmented chain 2 → 3. -/
def fsC9w : FAT32Filesystem :=
  { Header := { BPB := { SectorsPerCluster := 1, LargeSectorCount := 8 } },
    FAT := [0, 0, 3, 0x0fffffff] }

/-- Claim C9, counterexample to the claim as stated: a non-contiguous
chain of `Size = 2^32 + 2048` on 1536-byte clusters. The walker's
truncated size is 2048, but a single read with a 4096-byte buffer
delivers 3072 bytes (two whole clusters) together with the end-of-stream
signal — more than `Size mod 2^32`. -/
theorem C9_counterexample :
    (2 ^ 32 + 2048) % 2 ^ 32 = 2048 ∧
    ∃ (bytes : List Nat) (st' : chainReader),
      chainReaderRead fsC9 img256 100000
          (mkChainWalker { StartCluster := 2, Contiguous := false, Size := 2 ^ 32 + 2048 })
          4096 =
        .ok (bytes, st', true) ∧ bytes.length = 3072 := by
  refine ⟨by decide, ⟨chainSegs fsC9 img256 1536 (fun j => 2 + j) 0 2,
    chainReader.mk (3072 % 2 ^ 32) 3 2048, ?_, ?_⟩⟩
  · have hmk : mkChainWalker { StartCluster := 2, Contiguous := false, Size := 2 ^ 32 + 2048 } =
        chainReader.mk 0 ((fun j : Nat => 2 + j) 0) 2048 := by decide
    rw [hmk]
    exact chainReaderRead_run_ceil fsC9 img256 100000 1536 2048 4096 2 (fun j => 2 + j)
      (by decide) (by decide) (by decide) (by decide) (by decide) (by decide) (by decide)
      (by decide) (by decide)
      (by
        intro j hj
        have hj1 : j < 1 := by omega
        interval_cases j
        · decide)
      (by
        intro j hj
        interval_cases j
        · decide
        · decide)
  · rw [chainSegs_length]

/-- Claim C9, witness: parts of the amended theorem applied at concrete
chains — the walker of a `Size = 2^32 + 1024` chain stores the truncated
size and delivers exactly 1024 bytes before end-of-stream, while a
contiguous chain's window is bounded by the full size. -/
theorem C9_witness :
    GetChainReader fsC9w { StartCluster := 2, Contiguous := false, Size := 2 ^ 32 + 1024 } =
      .ok (.walker (chainReader.mk 0 2 ((2 ^ 32 + 1024) % 2 ^ 32))) ∧
    GetChainReader fsC4 { StartCluster := 5, Contiguous := true, Size := 1536 } =
      .ok (.window (limitedReadSeeker.mk (GetDataOffsetVal fsC4 5 0) (1536 : Int) 0)) ∧
    ∃ (bytes : List Nat) (st' : chainReader),
      chainReadToEOF fsC9w img256 100000
          (mkChainWalker { StartCluster := 2, Contiguous := false, Size := 2 ^ 32 + 1024 }) =
        .ok (bytes, st', true) ∧
      bytes.length = (2 ^ 32 + 1024) % 2 ^ 32 :=
  ⟨C9_size_truncation.1 fsC9w { StartCluster := 2, Contiguous := false, Size := 2 ^ 32 + 1024 }
     (by decide),
   C9_size_truncation.2.1 fsC4 { StartCluster := 5, Contiguous := true, Size := 1536 }
     (by decide) (by decide) (by decide) (by decide),
   C9_size_truncation.2.2 fsC9w img256 100000
     { StartCluster := 2, Contiguous := false, Size := 2 ^ 32 + 1024 } 2 (fun j => 2 + j)
     (by decide) (by decide) (by decide) (by decide) (by decide)
     (by
       intro j hj
       have hj1 : j < 1 := by omega
       interval_cases j
       · decide)
     (by
       intro j hj
       interval_cases j
       · decide
       · decide)⟩


/-- Allocation table for the C7 counterexample: clusters 2 and 3 both
link to cluster 4 (a shared successor), cluster 4 is an end-of-chain
mark. Every entry is 0, a valid forward link, or an out-of-range tail,
as the claim requires. -/
def fs7 : FAT32Filesystem :=
  { Header := { BPB := { SectorsPerCluster := 1, LargeSectorCount := 5 } },
    FAT := [0, 0, 4, 4, 0x0fffffff] }

/-- Allocation table for the C7 witness: the single chain 2 → 3 → 4 with
unique predecessors. -/
def fs7w : FAT32Filesystem :=
  { Header := { BPB := { SectorsPerCluster := 1, LargeSectorCount := 6 } },
    FAT := [0, 0, 3, 4, 0x0fffffff, 0] }

/-- Claim C7, counterexample to the claim as stated: in `fs7` every entry
is 0, a valid forward link or an out-of-range tail, yet the chains of
`GetAllChains` total 2 clusters (one chain of 1024 bytes on 512-byte
clusters) while the table has 3 non-zero reachable entries (2, 3 and 4):
the reversed-FAT build keeps only the last writer of cell 4, so the
branch through cluster 2 is dropped. -/
theorem C7_counterexample :
    (∀ i ∈ Finset.Ico 2 5, mval fs7.FAT i = 0 ∨
      (2 ≤ mval fs7.FAT i ∧ mval fs7.FAT i < 5) ∨ 5 ≤ mval fs7.FAT i) ∧
    fs7.Header.BPB.LargeSectorCount / fs7.Header.BPB.SectorsPerCluster = 5 ∧
    GetAllChains fs7 = .ok [{ StartCluster := 3, Contiguous := true, Size := 1024 }] ∧
    ([({ StartCluster := 3, Contiguous := true, Size := 1024 } : FATChain)].map
      FATChain.Size).sum = 2 * (SectorSize * 1) ∧
    (reachableNonzero fs7.FAT 5).card = 3 ∧ (2 : Nat) ≠ 3 := by
  refine ⟨by decide, by decide, by decide, by decide, by decide, by decide⟩

/-- Claim C7, witness: the amended theorem applied to the unique-
predecessor table `fs7w`, whose single 3-cluster chain accounts for its
3 non-zero reachable entries. -/
theorem C7_witness :
    ∃ chains : List FATChain, GetAllChains fs7w = .ok chains ∧
      (chains.map FATChain.Size).sum =
        (reachableNonzero fs7w.FAT 6).card *
          (SectorSize * fs7w.Header.BPB.SectorsPerCluster) :=
  C7_chain_sizes_account fs7w 6 (by decide) (by decide) (by decide) (by decide)
    (by
      intro i h2 hc
      interval_cases i <;> decide)
    (by
      intro i j h2i hic h2j hjc
      interval_cases i <;> interval_cases j <;> decide)
    (by decide)

end Fat
